import Mathlib

/-!
# Verification of the protocol-translation gateway (`proxy.py`)

A shallow embedding of the gateway's core translation logic:

* `remove_uri_format` — the JSON-schema sanitizer;
* `normalize_content`, `translate_request` — the inbound request translator;
* `handle_non_stream` — the non-streaming response translator;
* `stream_generator` — the streaming event translator.

JSON values are modelled by the inductive `Json`; JSON numbers are modelled as
integers (the only non-integer numeric literal in the source is the default
temperature `1.0`, modelled as `1`).  Python's dynamic failures (`KeyError`,
`AttributeError`, `TypeError`, `IndexError`) are modelled explicitly with
`Except String`: an `Except.error` result corresponds to the Python code
raising an exception at that point.
-/

/-- A JSON value (and, equally, the Python data produced by `json.loads`).
Objects are insertion-ordered association lists, as Python dicts are. -/
inductive Json where
  | null
  | bool (b : Bool)
  | num (n : Int)
  | str (s : String)
  | arr (elems : List Json)
  | obj (members : List (String × Json))
deriving Repr

namespace Json

/-- Structural induction principle for the nested inductive `Json`, with the
membership form of the hypotheses for arrays and objects. -/
theorem recOnTree {P : Json → Prop}
    (hnull : P .null) (hbool : ∀ b, P (.bool b)) (hnum : ∀ n, P (.num n))
    (hstr : ∀ s, P (.str s))
    (harr : ∀ es, (∀ e ∈ es, P e) → P (.arr es))
    (hobj : ∀ ms, (∀ kv ∈ ms, P kv.2) → P (.obj ms)) : ∀ j, P j :=
  fun j =>
    @Json.rec P (fun es => ∀ e ∈ es, P e) (fun ms => ∀ kv ∈ ms, P kv.2)
      (fun kv => P kv.2)
      hnull hbool hnum hstr harr hobj
      (by simp)
      (fun hd tl ph pt => by
        intro e he
        rcases List.mem_cons.mp he with h | h
        · exact h ▸ ph
        · exact pt e h)
      (by simp)
      (fun hd tl ph pt => by
        intro kv hkv
        rcases List.mem_cons.mp hkv with h | h
        · exact h ▸ ph
        · exact pt kv h)
      (fun _ _ pv => pv)
      j

mutual

/-- Boolean equality on `Json` values. -/
def beq : Json → Json → Bool
  | .null, .null => true
  | .bool a, .bool b => a == b
  | .num a, .num b => a == b
  | .str a, .str b => a == b
  | .arr a, .arr b => beqList a b
  | .obj a, .obj b => beqObj a b
  | _, _ => false

/-- Boolean equality on lists of `Json` values. -/
def beqList : List Json → List Json → Bool
  | [], [] => true
  | a :: as, b :: bs => beq a b && beqList as bs
  | _, _ => false

/-- Boolean equality on object member lists. -/
def beqObj : List (String × Json) → List (String × Json) → Bool
  | [], [] => true
  | (k1, v1) :: as, (k2, v2) :: bs => k1 == k2 && beq v1 v2 && beqObj as bs
  | _, _ => false

end

theorem beq_iff_eq : ∀ a b : Json, beq a b = true ↔ a = b := by
  intro a
  induction a using Json.recOnTree with
  | hnull => intro b; cases b <;> simp [beq]
  | hbool x => intro b; cases b <;> simp [beq]
  | hnum x => intro b; cases b <;> simp [beq]
  | hstr x => intro b; cases b <;> simp [beq]
  | harr es ih =>
    intro b
    cases b <;> simp only [beq] <;> try simp
    case arr bs =>
      constructor
      · intro h
        induction es generalizing bs with
        | nil => cases bs <;> simp_all [beqList]
        | cons e es ihes =>
          cases bs with
          | nil => simp [beqList] at h
          | cons y ys =>
            simp only [beqList, Bool.and_eq_true] at h
            have h1 := (ih e (by simp) y).mp h.1
            have h2 := ihes (fun x hx => ih x (by simp [hx])) ys h.2
            simp at h2
            simp [h1, h2]
      · rintro rfl
        induction es with
        | nil => simp [beqList]
        | cons e es ihes =>
          simp only [beqList, Bool.and_eq_true]
          exact ⟨(ih e (by simp) e).mpr rfl, ihes (fun x hx => ih x (by simp [hx]))⟩
  | hobj ms ih =>
    intro b
    cases b <;> simp only [beq] <;> try simp
    case obj bs =>
      constructor
      · intro h
        induction ms generalizing bs with
        | nil => cases bs <;> simp_all [beqObj]
        | cons kv ms ihms =>
          obtain ⟨k, v⟩ := kv
          cases bs with
          | nil => simp [beqObj] at h
          | cons kb bs =>
            obtain ⟨k2, v2⟩ := kb
            simp only [beqObj, Bool.and_eq_true] at h
            have h1 := (ih (k, v) (by simp) v2).mp h.1.2
            have h2 := ihms (fun x hx => ih x (by simp [hx])) bs h.2
            simp at h2
            simp_all
      · rintro rfl
        induction ms with
        | nil => simp [beqObj]
        | cons kv ms ihms =>
          obtain ⟨k, v⟩ := kv
          simp only [beqObj, Bool.and_eq_true]
          refine ⟨⟨by simp, (ih (k, v) (by simp) v).mpr rfl⟩, ihms (fun x hx => ih x (by simp [hx]))⟩

instance : DecidableEq Json := fun a b => decidable_of_iff (beq a b = true) (beq_iff_eq a b)

end Json

instance {e a : Type} [DecidableEq e] [DecidableEq a] : DecidableEq (Except e a) := fun x y =>
  match x, y with
  | .ok v, .ok w => decidable_of_iff (v = w) (by simp)
  | .error v, .error w => decidable_of_iff (v = w) (by simp)
  | .ok _, .error _ => isFalse (by simp)
  | .error _, .ok _ => isFalse (by simp)

theorem except_bind_ok {e a b : Type} (x : a) (f : a → Except e b) :
    (Except.ok x >>= f) = f x := rfl

theorem except_bind_error {e a b : Type} (s : e) (f : a → Except e b) :
    ((Except.error s : Except e a) >>= f) = Except.error s := rfl

/-! ## Python operational helpers

These model the Python operations the source uses on JSON-derived data.
Cross-type numeric equality (`True == 1`, `1 == 1.0`) is not modelled; keys
compared here are JSON values of a single type in all behaviours of interest. -/

namespace Py

/-- Python truthiness `bool(x)` of a JSON-derived value. -/
def truthy : Json → Bool
  | .null => false
  | .bool b => b
  | .num n => n != 0
  | .str s => s != ""
  | .arr es => !es.isEmpty
  | .obj ms => !ms.isEmpty

/-- `d.get(k, default)`: `AttributeError` when the receiver is not a dict. -/
def getD (j : Json) (k : String) (d : Json) : Except String Json :=
  match j with
  | .obj ms => .ok ((ms.lookup k).getD d)
  | _ => .error "AttributeError: get"

/-- `d.get(k)` — the one-argument form, whose default is `None`. -/
def get (j : Json) (k : String) : Except String Json := getD j k .null

/-- `d[k]` for a string key: `KeyError` when absent, `TypeError` when the
receiver is not a dict (string/list subscripts take integers). -/
def getItem (j : Json) (k : String) : Except String Json :=
  match j with
  | .obj ms =>
    match ms.lookup k with
    | some v => .ok v
    | none => .error ("KeyError: " ++ k)
  | _ => .error "TypeError: string subscript"

/-- `x[0]`: first element of a list, first character of a string,
`KeyError` on a JSON-derived dict (whose keys are strings), `TypeError`
otherwise. -/
def item0 (j : Json) : Except String Json :=
  match j with
  | .arr (x :: _) => .ok x
  | .arr [] => .error "IndexError: list index out of range"
  | .str s =>
    match s.data with
    | c :: _ => .ok (.str (String.mk [c]))
    | [] => .error "IndexError: string index out of range"
  | .obj _ => .error "KeyError: 0"
  | _ => .error "TypeError: not subscriptable"

/-- `for x in j`: lists yield elements, strings yield characters, dicts yield
their keys; other values raise `TypeError`. -/
def iter (j : Json) : Except String (List Json) :=
  match j with
  | .arr es => .ok es
  | .str s => .ok (s.data.map (fun c => .str (String.mk [c])))
  | .obj ms => .ok (ms.map (fun kv => Json.str kv.1))
  | _ => .error "TypeError: not iterable"

/-- `k in d` for a string key `k`.  In `messages_proxy` this runs only after
`payload.get(...)` has succeeded, so the receiver is a dict there. -/
def containsKey (j : Json) (k : String) : Except String Bool :=
  match j with
  | .obj ms => .ok (ms.any (fun kv => kv.1 == k))
  | .arr es => .ok (es.any (fun e => e == .str k))
  | .str s => .ok (decide (List.IsInfix k.data s.data))
  | _ => .error "TypeError: not a container"

/-- The string contents of a sequence, in order; `TypeError` at the first
non-string element. -/
def strList : List Json → Except String (List String)
  | [] => .ok []
  | .str s :: rest => do
    let ss ← strList rest
    return s :: ss
  | _ :: _ => .error "TypeError: sequence item is not str"

/-- `' '.join(xs)`: `TypeError` unless every element is a string. -/
def joinSpace (xs : List Json) : Except String String := do
  let ss ← strList xs
  return String.intercalate " " ss

end Py

/-! ## The schema sanitizer (`remove_uri_format`, proxy.py lines 67–75) -/

/-- The node test from line 70:
`schema.get('type') == 'string' and schema.get('format') == 'uri'`. -/
def isUriStringNode (ms : List (String × Json)) : Bool :=
  decide (ms.lookup "type" = some (.str "string") ∧ ms.lookup "format" = some (.str "uri"))

mutual

/-- `remove_uri_format` (lines 67–75).  On a matching dict node it returns the
member list with every `'format'` entry filtered out — without recursing into
the remaining values, exactly as the Python dict comprehension on line 71
does; on any other dict it recurses into each value; on a list it recurses
into each element; scalars pass through. -/
def remove_uri_format (schema : Json) : Json :=
  match schema with
  | .obj ms =>
    if isUriStringNode ms then
      .obj (ms.filter (fun kv => kv.1 ≠ "format"))
    else
      .obj (removeObj ms)
  | .arr es => .arr (removeArr es)
  | j => j

/-- The sanitizer mapped over the elements of a list node. -/
def removeArr : List Json → List Json
  | [] => []
  | e :: es => remove_uri_format e :: removeArr es

/-- The sanitizer mapped over the values of a dict node. -/
def removeObj : List (String × Json) → List (String × Json)
  | [] => []
  | (k, v) :: ms => (k, remove_uri_format v) :: removeObj ms

end

mutual

/-- Whether some dict node satisfying the line-70 test occurs anywhere in the
tree. -/
def containsUriNode : Json → Bool
  | .obj ms => isUriStringNode ms || anyObjUri ms
  | .arr es => anyArrUri es
  | _ => false

/-- `containsUriNode` disjoined over a list node's elements. -/
def anyArrUri : List Json → Bool
  | [] => false
  | e :: es => containsUriNode e || anyArrUri es

/-- `containsUriNode` disjoined over a dict node's values. -/
def anyObjUri : List (String × Json) → Bool
  | [] => false
  | (_, v) :: ms => containsUriNode v || anyObjUri ms

end

mutual

/-- No dict node satisfying the line-70 test occurs strictly inside another
such node. -/
def noNestedUriNode : Json → Bool
  | .obj ms =>
    (!isUriStringNode ms || !anyObjUri ms) && allObjOk ms
  | .arr es => allArrOk es
  | _ => true

/-- `noNestedUriNode` conjoined over a list node's elements. -/
def allArrOk : List Json → Bool
  | [] => true
  | e :: es => noNestedUriNode e && allArrOk es

/-- `noNestedUriNode` conjoined over a dict node's values. -/
def allObjOk : List (String × Json) → Bool
  | [] => true
  | (_, v) :: ms => noNestedUriNode v && allObjOk ms

end

/-! ### Sanitizer lemmas -/

theorem removeArr_eq_map (es : List Json) : removeArr es = es.map remove_uri_format := by
  induction es with
  | nil => rfl
  | cons e es ih => simp [removeArr, ih]

theorem removeObj_eq_map (ms : List (String × Json)) :
    removeObj ms = ms.map (fun kv => (kv.1, remove_uri_format kv.2)) := by
  induction ms with
  | nil => rfl
  | cons kv ms ih => obtain ⟨k, v⟩ := kv; simp [removeObj, ih]

theorem anyArrUri_eq (es : List Json) : anyArrUri es = es.any containsUriNode := by
  induction es with
  | nil => rfl
  | cons e es ih => simp [anyArrUri, ih]

theorem anyObjUri_eq (ms : List (String × Json)) :
    anyObjUri ms = ms.any (fun kv => containsUriNode kv.2) := by
  induction ms with
  | nil => rfl
  | cons kv ms ih => obtain ⟨k, v⟩ := kv; simp [anyObjUri, ih]

theorem allArrOk_eq (es : List Json) : allArrOk es = es.all noNestedUriNode := by
  induction es with
  | nil => rfl
  | cons e es ih => simp [allArrOk, ih]

theorem allObjOk_eq (ms : List (String × Json)) :
    allObjOk ms = ms.all (fun kv => noNestedUriNode kv.2) := by
  induction ms with
  | nil => rfl
  | cons kv ms ih => obtain ⟨k, v⟩ := kv; simp [allObjOk, ih]

/-- The sanitizer preserves the outermost constructor, so a value sanitizes to
a given string iff it is that string already. -/
theorem remove_eq_str_iff (v : Json) (s : String) :
    remove_uri_format v = .str s ↔ v = .str s := by
  cases v with
  | null => simp only [remove_uri_format]
  | bool b => simp only [remove_uri_format]
  | num n => simp only [remove_uri_format]
  | str t => simp only [remove_uri_format]
  | arr es =>
    simp only [remove_uri_format]
    exact iff_of_false (by simp) (by simp)
  | obj ms =>
    simp only [remove_uri_format]
    refine iff_of_false ?_ (by simp)
    split <;> simp

theorem lookup_removeObj (ms : List (String × Json)) (k : String) :
    (removeObj ms).lookup k = (ms.lookup k).map remove_uri_format := by
  induction ms with
  | nil => rfl
  | cons kv ms ih =>
    obtain ⟨k1, v⟩ := kv
    by_cases h : k = k1
    · simp [removeObj, List.lookup, h]
    · have hb : (k == k1) = false := by simpa using h
      simp [removeObj, List.lookup, hb, ih]

theorem isUriStringNode_removeObj (ms : List (String × Json)) :
    isUriStringNode (removeObj ms) = isUriStringNode ms := by
  unfold isUriStringNode
  rw [lookup_removeObj, lookup_removeObj]
  apply decide_eq_decide.mpr
  apply and_congr
  · cases h : ms.lookup "type" <;> simp [remove_eq_str_iff]
  · cases h : ms.lookup "format" <;> simp [remove_eq_str_iff]

theorem lookup_filter_ne_format (ms : List (String × Json)) :
    (ms.filter (fun kv => kv.1 ≠ "format")).lookup "format" = none := by
  induction ms with
  | nil => rfl
  | cons kv ms ih =>
    obtain ⟨k, v⟩ := kv
    by_cases h : k = "format"
    · rw [List.filter_cons_of_neg (by simp [h])]
      exact ih
    · rw [List.filter_cons_of_pos (by simp [h])]
      have hb : ("format" == k) = false := by simpa using Ne.symm h
      simp only [List.lookup, hb]
      exact ih

/-- A tree containing no `type=string, format=uri` node is a fixed point of
the sanitizer. -/
theorem remove_of_not_contains : ∀ j, containsUriNode j = false → remove_uri_format j = j := by
  intro j
  induction j using Json.recOnTree with
  | hnull => intro; rfl
  | hbool b => intro; rfl
  | hnum n => intro; rfl
  | hstr s => intro; rfl
  | harr es ih =>
    intro h
    simp only [containsUriNode, anyArrUri_eq, List.any_eq_false] at h
    simp only [remove_uri_format, removeArr_eq_map, Json.arr.injEq]
    have : es.map remove_uri_format = es.map id :=
      List.map_congr_left fun e he => ih e he (by simpa using h e he)
    simpa using this
  | hobj ms ih =>
    intro h
    simp only [containsUriNode, Bool.or_eq_false_iff, anyObjUri_eq, List.any_eq_false] at h
    obtain ⟨h1, h2⟩ := h
    simp only [remove_uri_format, h1, Bool.false_eq_true, if_false, removeObj_eq_map,
      Json.obj.injEq]
    have : ms.map (fun kv => (kv.1, remove_uri_format kv.2)) = ms.map id :=
      List.map_congr_left fun kv hkv => by
        have := ih kv hkv (by simpa using h2 kv hkv)
        simp [this]
    simpa using this

/-- One application of the sanitizer removes every `type=string, format=uri`
node, provided no such node sits strictly inside another one. -/
theorem contains_remove_eq_false :
    ∀ j, noNestedUriNode j = true → containsUriNode (remove_uri_format j) = false := by
  intro j
  induction j using Json.recOnTree with
  | hnull => intro; rfl
  | hbool b => intro; rfl
  | hnum n => intro; rfl
  | hstr s => intro; rfl
  | harr es ih =>
    intro h
    simp only [noNestedUriNode, allArrOk_eq, List.all_eq_true] at h
    simp only [remove_uri_format, containsUriNode, removeArr_eq_map, anyArrUri_eq,
      List.any_map, List.any_eq_false]
    intro e he
    simpa using ih e he (h e he)
  | hobj ms ih =>
    intro h
    simp only [noNestedUriNode, Bool.and_eq_true, Bool.or_eq_true, Bool.not_eq_true',
      allObjOk_eq, List.all_eq_true] at h
    obtain ⟨h1, h2⟩ := h
    by_cases hm : isUriStringNode ms = true
    · have hno : anyObjUri ms = false := by
        rcases h1 with h1 | h1
        · rw [hm] at h1; cases h1
        · exact h1
      simp only [anyObjUri_eq, List.any_eq_false] at hno
      have hrw : remove_uri_format (.obj ms) = .obj (ms.filter (fun kv => kv.1 ≠ "format")) := by
        simp only [remove_uri_format]
        rw [if_pos hm]
      rw [hrw]
      simp only [containsUriNode, Bool.or_eq_false_iff]
      constructor
      · unfold isUriStringNode
        rw [lookup_filter_ne_format]
        simp
      · simp only [anyObjUri_eq, List.any_eq_false]
        intro kv hkv
        exact hno kv (List.mem_of_mem_filter hkv)
    · have hrw : remove_uri_format (.obj ms) = .obj (removeObj ms) := by
        simp only [remove_uri_format]
        rw [if_neg hm]
      rw [hrw]
      simp only [containsUriNode, Bool.or_eq_false_iff]
      constructor
      · rw [isUriStringNode_removeObj]
        simpa using hm
      · simp only [removeObj_eq_map, anyObjUri_eq, List.any_map, List.any_eq_false]
        intro kv hkv
        simpa using ih kv hkv (h2 kv hkv)

/-! ### Claim C1 -/

/-- A schema with a matching node nested inside another matching node: the
sanitizer strips the outer node's `format` but returns its children
unchanged. -/
def nestedUriSchema : Json :=
  .obj [("type", .str "string"), ("format", .str "uri"),
        ("x", .obj [("type", .str "string"), ("format", .str "uri")])]

/-- C1, counterexample.  On `nestedUriSchema` one application of
`remove_uri_format` leaves a `type=string, format=uri` node in the result
(inside the child of the matched root), and applying the sanitizer twice
differs from applying it once — refuting both the no-survivor part and the
idempotence part of the claim. -/
theorem C1_sanitizer_counterexample :
    containsUriNode (remove_uri_format nestedUriSchema) = true ∧
    remove_uri_format (remove_uri_format nestedUriSchema) ≠ remove_uri_format nestedUriSchema := by
  decide

/-- C1 (amended): for every JSON-like tree in which no `type=string,
format=uri` mapping node occurs strictly inside another such node, one
application of `remove_uri_format` returns a tree in which no such node
retains its `format` key, and the sanitizer is idempotent on such trees;
non-container values always pass through unchanged.  (When a matching node
does sit inside another matching node, the inner one survives one
application, since a matched node's children are returned without recursion —
see the counterexample.) -/
theorem C1_sanitizer_amended (T : Json) (h : noNestedUriNode T = true) :
    containsUriNode (remove_uri_format T) = false ∧
    remove_uri_format (remove_uri_format T) = remove_uri_format T ∧
    remove_uri_format .null = .null ∧
    (∀ b, remove_uri_format (.bool b) = .bool b) ∧
    (∀ n, remove_uri_format (.num n) = .num n) ∧
    (∀ s, remove_uri_format (.str s) = .str s) := by
  have h1 := contains_remove_eq_false T h
  exact ⟨h1, remove_of_not_contains _ h1, rfl, fun b => rfl, fun n => rfl, fun s => rfl⟩

/-- A well-formed tool input schema: a `uri`-formatted string property inside
an object schema, with no nested match. -/
def uriWitnessSchema : Json :=
  .obj [("type", .str "object"),
        ("properties", .obj [("link", .obj [("type", .str "string"), ("format", .str "uri"),
                                            ("description", .str "a link")])])]

/-- C1, witness: the amended claim applied to `uriWitnessSchema`. -/
theorem C1_sanitizer_witness :
    noNestedUriNode uriWitnessSchema = true ∧
    (containsUriNode (remove_uri_format uriWitnessSchema) = false ∧
     remove_uri_format (remove_uri_format uriWitnessSchema) = remove_uri_format uriWitnessSchema ∧
     remove_uri_format .null = .null ∧
     (∀ b, remove_uri_format (.bool b) = .bool b) ∧
     (∀ n, remove_uri_format (.num n) = .num n) ∧
     (∀ s, remove_uri_format (.str s) = .str s)) :=
  ⟨by decide, C1_sanitizer_amended uriWitnessSchema (by decide)⟩

/-! ## `map_stop_reason` (proxy.py lines 47–55)

The callers pass `choice.get('finish_reason')` / the last chunk's finish
reason, which is an arbitrary JSON value; `if not finish_reason` is Python
truthiness, and the table lookup `{...}.get(finish_reason, 'end_turn')`
matches only the three listed strings — but raises `TypeError` on an
unhashable (list/dict) key. -/
def map_stop_reason (finish_reason : Json) : Except String String :=
  if !Py.truthy finish_reason then .ok "end_turn"
  else
    match finish_reason with
    | .arr _ => .error "TypeError: unhashable type"
    | .obj _ => .error "TypeError: unhashable type"
    | fr =>
      .ok (if fr = .str "tool_calls" then "tool_use"
           else if fr = .str "stop" then "end_turn"
           else if fr = .str "length" then "max_tokens"
           else "end_turn")

/-! ## `json.dumps` (used on line 108 to encode tool-use inputs) -/

/-- Hex digit. -/
def hexDigit (n : Nat) : Char :=
  if n < 10 then Char.ofNat ('0'.toNat + n) else Char.ofNat ('a'.toNat + (n - 10))

/-- One character of a Python `json.dumps` string, with the escapes `json`
always produces for ASCII output. -/
def escChar (c : Char) : String :=
  if c = '"' then "\\\""
  else if c = '\\' then "\\\\"
  else if c = '\n' then "\\n"
  else if c = '\t' then "\\t"
  else if c = '\r' then "\\r"
  else if c.toNat < 32 then
    "\\u00" ++ String.mk [hexDigit (c.toNat / 16), hexDigit (c.toNat % 16)]
  else String.mk [c]

/-- A `json.dumps` string literal. -/
def dumpString (s : String) : String :=
  "\"" ++ String.join (s.data.map escChar) ++ "\""

mutual

/-- Python's `json.dumps` with its default separators `', '` and `': '`,
restricted to the integer-numbered JSON modelled here. -/
def dumps : Json → String
  | .null => "null"
  | .bool b => if b then "true" else "false"
  | .num n => toString n
  | .str s => dumpString s
  | .arr es => "[" ++ dumpsArr es ++ "]"
  | .obj ms => "\x7b" ++ dumpsObj ms ++ "\x7d"

/-- Array elements of `dumps`, comma-separated. -/
def dumpsArr : List Json → String
  | [] => ""
  | [e] => dumps e
  | e :: es => dumps e ++ ", " ++ dumpsArr es

/-- Object members of `dumps`, comma-separated. -/
def dumpsObj : List (String × Json) → String
  | [] => ""
  | [(k, v)] => dumpString k ++ ": " ++ dumps v
  | (k, v) :: ms => dumpString k ++ ": " ++ dumps v ++ ", " ++ dumpsObj ms

end

/-! ## Request translation (`messages_proxy`, proxy.py lines 87–154) -/

/-- The generator under the `' '.join` on line 63: the `text` fields (with
default `''`) of the `text`-typed items, in order. -/
def collectTexts : List Json → Except String (List Json)
  | [] => .ok []
  | item :: rest => do
    let t ← Py.get item "type"
    if t = Json.str "text" then
      let tx ← Py.getD item "text" (.str "")
      let txs ← collectTexts rest
      return tx :: txs
    else
      collectTexts rest

/-- `normalize_content` (lines 58–64): a string passes through, a list yields
the space-joined `text` fields of its `text`-typed items, anything else
normalizes to `None`.  Iterating a list of non-dict items, or joining a
non-string `text` value, raises. -/
def normalize_content (content : Json) : Except String (Option String) :=
  match content with
  | .str s => .ok (some s)
  | .arr items => do
    let txs ← collectTexts items
    let s ← Py.joinSpace txs
    return some s
  | _ => .ok none

/-- One entry of the `tool_calls` list comprehension (lines 104–112):
`item['id']`, `item['name']` and `item['input']` are bracket accesses, so a
`tool_use` block missing any of them raises `KeyError`. -/
def toolCallEntry (item : Json) : Except String Json := do
  let i ← Py.getItem item "id"
  let n ← Py.getItem item "name"
  let inp ← Py.getItem item "input"
  return .obj [("type", .str "function"), ("id", i),
               ("function", .obj [("name", n), ("arguments", .str (dumps inp))])]

/-- The `tool_calls` comprehension over a content block list. -/
def extractToolCalls : List Json → Except String (List Json)
  | [] => .ok []
  | item :: rest => do
    let t ← Py.get item "type"
    if t = Json.str "tool_use" then
      let e ← toolCallEntry item
      let es ← extractToolCalls rest
      return e :: es
    else
      extractToolCalls rest

/-- The synthetic `tool`-role message built from one `tool_result` block
(lines 126–132), for a block already known to be a dict. -/
def mkToolResultMsg (item : Json) : Json :=
  match item with
  | .obj ms =>
    .obj [("role", .str "tool"), ("content", (ms.lookup "content").getD (.str "")),
          ("tool_call_id", (ms.lookup "tool_use_id").getD .null)]
  | _ => .null

/-- The `tool_result` loop (lines 123–132) over a content block list. -/
def toolResultMessages : List Json → Except String (List Json)
  | [] => .ok []
  | item :: rest => do
    let t ← Py.get item "type"
    if t = Json.str "tool_result" then
      let c ← Py.getD item "content" (.str "")
      let tid ← Py.get item "tool_use_id"
      let es ← toolResultMessages rest
      return .obj [("role", .str "tool"), ("content", c), ("tool_call_id", tid)] :: es
    else
      toolResultMessages rest

/-- Whether an item's `type` field (with Python's `get` default) equals the
given tag. -/
def itemTypeIs (item : Json) (tag : String) : Bool :=
  match item with
  | .obj ms => (ms.lookup "type").getD .null == .str tag
  | _ => false

/-- The at-most-one target message derived from an inbound message itself
(lines 99–121): `role` always, `content` when the normalized text is truthy,
`tool_calls` when any tool-use block was extracted; emitted only when at
least one of the latter two is present. -/
def derivedMessages (msg : Json) : Except String (List Json) := do
  let role ← Py.get msg "role"
  let content ← Py.get msg "content"
  let normalized ← normalize_content content
  let tool_calls ←
    match content with
    | .arr items => extractToolCalls items
    | _ => .ok ([] : List Json)
  let contentEntry : List (String × Json) :=
    match normalized with
    | some s => if s = "" then [] else [("content", Json.str s)]
    | none => []
  let toolEntry : List (String × Json) :=
    if tool_calls.isEmpty then [] else [("tool_calls", Json.arr tool_calls)]
  if contentEntry.isEmpty && toolEntry.isEmpty then
    return []
  else
    return [Json.obj ([("role", role)] ++ contentEntry ++ toolEntry)]

/-- The synthetic `tool`-role messages of one inbound message
(lines 123–132): one per `tool_result` block of a list-shaped content, in
block order. -/
def toolResultsOfContent (msg : Json) : Except String (List Json) := do
  let content ← Py.get msg "content"
  match content with
  | .arr items => toolResultMessages items
  | _ => .ok []

/-- One iteration of the message loop (lines 98–132): the derived message (if
any) followed by the synthetic tool-result messages, in order. -/
def translateMessage (msg : Json) : Except String (List Json) := do
  let der ← derivedMessages msg
  let trs ← toolResultsOfContent msg
  return der ++ trs

/-- The whole message loop, in inbound order. -/
def translateMessages : List Json → Except String (List Json)
  | [] => .ok []
  | m :: rest => do
    let a ← translateMessage m
    let b ← translateMessages rest
    return a ++ b

/-- The system-prompt block (lines 93–96). -/
def systemMessages (payload : Json) : Except String (List Json) := do
  let hasSystem ← Py.containsKey payload "system"
  if hasSystem then
    let sys ← Py.getItem payload "system"
    let sc ← normalize_content sys
    match sc with
    | some s =>
      if s = "" then return []
      else return [Json.obj [("role", .str "system"), ("content", .str s)]]
    | none => return []
  else
    return []

/-- One tool descriptor (lines 134–144): `tool['name']`,
`tool['description']` and `tool['input_schema']` are bracket accesses. -/
def translateTool (tool : Json) : Except String Json := do
  let n ← Py.getItem tool "name"
  let d ← Py.getItem tool "description"
  let sch ← Py.getItem tool "input_schema"
  return .obj [("type", .str "function"),
               ("function", .obj [("name", n), ("description", d),
                                  ("parameters", remove_uri_format sch)])]

/-- The tool-list comprehension body, element by element. -/
def translateToolList : List Json → Except String (List Json)
  | [] => .ok []
  | t :: rest => do
    let e ← translateTool t
    let es ← translateToolList rest
    return e :: es

/-- The tool-list comprehension over `payload.get('tools', [])`. -/
def translateTools (payload : Json) : Except String (List Json) := do
  let ts ← Py.getD payload "tools" (.arr [])
  let items ← Py.iter ts
  translateToolList items

/-- The outbound target-protocol request (lines 146–154).  The `tools` key is
present iff the tool list is non-empty, hence the `Option` field. -/
structure OpenAIPayload where
  model : String
  messages : List Json
  max_tokens : Json
  temperature : Json
  stream : Json
  tools : Option (List Json)
deriving Repr, DecidableEq

/-- The request-translation phase of `messages_proxy` (lines 87–154), from
the parsed inbound payload and the two resolved model names to the outbound
request.  An `Except.error` result is an exception reaching the handler's
generic `except` clause (line 171). -/
def translate_request (reasoning_model completion_model : String) (payload : Json) :
    Except String OpenAIPayload := do
  let isStream ← Py.getD payload "stream" (.bool false)
  let sysMsgs ← systemMessages payload
  let rawMsgs ← Py.getD payload "messages" (.arr [])
  let items ← Py.iter rawMsgs
  let msgs ← translateMessages items
  let tools ← translateTools payload
  let thinking ← Py.get payload "thinking"
  let maxTok ← Py.getD payload "max_tokens" (.num 4096)
  let temp ← Py.getD payload "temperature" (.num 1)
  return { model := if Py.truthy thinking then reasoning_model else completion_model,
           messages := sysMsgs ++ msgs,
           max_tokens := maxTok,
           temperature := temp,
           stream := isStream,
           tools := if tools.isEmpty then none else some tools }

/-! ## Model-name resolution (proxy.py lines 31–33) -/

/-- `os.getenv(X) or default`: an unset variable (`None`) and an empty string
both fall back to the default. -/
def envOr (v : Option String) (d : String) : String :=
  match v with
  | some s => if s = "" then d else s
  | none => d

/-- `DEFAULT_MODEL = os.getenv('MODEL') or 'my-model'` (line 31). -/
def DEFAULT_MODEL (envModel : Option String) : String := envOr envModel "my-model"

/-- `REASONING_MODEL = os.getenv('REASONING_MODEL') or DEFAULT_MODEL` (line 32). -/
def REASONING_MODEL (envReasoning envModel : Option String) : String :=
  envOr envReasoning (DEFAULT_MODEL envModel)

/-- `COMPLETION_MODEL = os.getenv('COMPLETION_MODEL') or DEFAULT_MODEL` (line 33). -/
def COMPLETION_MODEL (envCompletion envModel : Option String) : String :=
  envOr envCompletion (DEFAULT_MODEL envModel)

/-! ### Claim C6 -/

/-- C6: for every inbound request that translates successfully, the outbound
model is the reasoning model exactly when `thinking` is truthy and the
completion model otherwise (both collapsing to the shared default when their
environment variables are unset); `max_tokens` defaults to `4096` and
`temperature` to `1.0` when absent; and the `tools` field is omitted
entirely (`none`, not an empty list) when the inbound request supplies no
tools. -/
theorem C6_outbound_request_defaults (envR envC envM : Option String)
    (kvs : List (String × Json)) (out : OpenAIPayload)
    (h : translate_request (REASONING_MODEL envR envM) (COMPLETION_MODEL envC envM)
           (.obj kvs) = .ok out) :
    out.model = (if Py.truthy ((kvs.lookup "thinking").getD .null)
                 then REASONING_MODEL envR envM else COMPLETION_MODEL envC envM) ∧
    (envR = none → envC = none → out.model = DEFAULT_MODEL envM) ∧
    (kvs.lookup "max_tokens" = none → out.max_tokens = .num 4096) ∧
    (kvs.lookup "temperature" = none → out.temperature = .num 1) ∧
    ((kvs.lookup "tools" = none ∨ kvs.lookup "tools" = some (.arr [])) → out.tools = none) := by
  unfold translate_request at h
  cases hsys : systemMessages (Json.obj kvs) with
  | error e => simp [hsys, Py.getD, bind, Except.bind] at h
  | ok sys =>
  cases hit : Py.iter ((kvs.lookup "messages").getD (.arr [])) with
  | error e => simp [hsys, hit, Py.getD, bind, Except.bind] at h
  | ok items =>
  cases hmsgs : translateMessages items with
  | error e => simp [hsys, hit, hmsgs, Py.getD, bind, Except.bind] at h
  | ok msgs =>
  cases htools : translateTools (Json.obj kvs) with
  | error e => simp [hsys, hit, hmsgs, htools, Py.getD, bind, Except.bind] at h
  | ok tools =>
  simp only [hsys, hit, hmsgs, htools, Py.getD, Py.get, bind, Except.bind, pure, Except.pure,
    Except.ok.injEq] at h
  subst h
  refine ⟨rfl, ?_, ?_, ?_, ?_⟩
  · rintro rfl rfl
    simp [REASONING_MODEL, COMPLETION_MODEL, envOr]
  · intro hmt
    simp [hmt]
  · intro htemp
    simp [htemp]
  · intro htl
    have : tools = [] := by
      rcases htl with htl | htl <;>
        simpa [translateTools, Py.getD, htl, Py.iter, bind, Except.bind, pure, Except.pure,
          translateToolList] using htools.symm
    simp [this]

/-- The outbound request produced from an empty inbound payload. -/
def emptyPayloadOut : OpenAIPayload :=
  { model := "base", messages := [], max_tokens := .num 4096, temperature := .num 1,
    stream := .bool false, tools := none }

/-- C6, witness: the theorem applied to the empty inbound payload with only
the shared default model configured. -/
theorem C6_outbound_request_defaults_witness :
    translate_request (REASONING_MODEL none (some "base")) (COMPLETION_MODEL none (some "base"))
        (.obj []) = .ok emptyPayloadOut ∧
    (emptyPayloadOut.model = (if Py.truthy ((List.lookup "thinking" ([] : List (String × Json))).getD .null)
                 then REASONING_MODEL none (some "base") else COMPLETION_MODEL none (some "base")) ∧
     (none = (none : Option String) → none = (none : Option String) →
        emptyPayloadOut.model = DEFAULT_MODEL (some "base")) ∧
     (List.lookup "max_tokens" ([] : List (String × Json)) = none →
        emptyPayloadOut.max_tokens = .num 4096) ∧
     (List.lookup "temperature" ([] : List (String × Json)) = none →
        emptyPayloadOut.temperature = .num 1) ∧
     ((List.lookup "tools" ([] : List (String × Json)) = none ∨
       List.lookup "tools" ([] : List (String × Json)) = some (.arr [])) →
        emptyPayloadOut.tools = none)) :=
  ⟨rfl, C6_outbound_request_defaults none none (some "base") [] emptyPayloadOut rfl⟩

/-! ### Claim C7 -/

/-- A content block list item for which the translation performs no failing
access: the item is a mapping; a `text`-typed item's `text` value (when
present) is a string; a `tool_use`-typed item carries `id`, `name` and
`input`. -/
def wfItem (item : Json) : Bool :=
  match item with
  | .obj ms =>
    (((ms.lookup "type").getD .null != .str "text") ||
      (match (ms.lookup "text").getD (.str "") with | .str _ => true | _ => false)) &&
    (((ms.lookup "type").getD .null != .str "tool_use") ||
      ((ms.lookup "id").isSome && (ms.lookup "name").isSome && (ms.lookup "input").isSome))
  | _ => false

/-- Content on which `normalize_content` and the block extractions cannot
fail: any non-list value, or a list of well-formed items. -/
def wfContent (c : Json) : Bool :=
  match c with
  | .arr items => items.all wfItem
  | _ => true

/-- A tool definition carrying the three bracket-accessed keys of
lines 138–140. -/
def wfTool (t : Json) : Bool :=
  match t with
  | .obj ms =>
    (ms.lookup "name").isSome && (ms.lookup "description").isSome &&
      (ms.lookup "input_schema").isSome
  | _ => false

/-- An inbound message that is a mapping with well-formed content. -/
def wfMessage (m : Json) : Bool :=
  match m with
  | .obj ms => wfContent ((ms.lookup "content").getD .null)
  | _ => false

/-- An inbound payload on which request translation performs no failing
dynamic access. -/
def wfPayload (p : Json) : Bool :=
  match p with
  | .obj kvs =>
    (match kvs.lookup "system" with | some s => wfContent s | none => true) &&
    (match kvs.lookup "messages" with
     | some (.arr msgs) => msgs.all wfMessage
     | some _ => false
     | none => true) &&
    (match kvs.lookup "tools" with
     | some (.arr ts) => ts.all wfTool
     | some _ => false
     | none => true)
  | _ => false

theorem collectTexts_ok (items : List Json) (h : ∀ item ∈ items, wfItem item = true) :
    ∃ txs, collectTexts items = .ok txs ∧ ∀ t ∈ txs, ∃ s, t = Json.str s := by
  induction items with
  | nil => exact ⟨[], rfl, by simp⟩
  | cons item rest ih =>
    obtain ⟨txs, hrec, hstr⟩ := ih (fun i hi => h i (by simp [hi]))
    have hitem := h item (by simp)
    unfold wfItem at hitem
    cases item with
    | obj ms =>
      simp only [Bool.and_eq_true, Bool.or_eq_true, bne_iff_ne, ne_eq, Bool.not_eq_true,
        decide_eq_true_eq] at hitem
      by_cases ht : (ms.lookup "type").getD .null = Json.str "text"
      · rcases hitem.1 with h1 | h1
        · exact absurd ht h1
        · obtain ⟨tx, htx⟩ : ∃ s, (ms.lookup "text").getD (.str "") = Json.str s := by
            rcases he : (ms.lookup "text").getD (.str "") with _ | b | n | s | es | mss <;>
              simp [he] at h1
            exact ⟨s, rfl⟩
          refine ⟨Json.str tx :: txs, ?_, ?_⟩
          · simp [collectTexts, Py.get, Py.getD, bind, Except.bind, ht, htx, hrec, pure,
              Except.pure]
          · intro t hmem
            rcases List.mem_cons.mp hmem with h | h
            · exact ⟨tx, h⟩
            · exact hstr t h
      · refine ⟨txs, ?_, hstr⟩
        simp [collectTexts, Py.get, Py.getD, bind, Except.bind, ht, hrec]
    | null => simp at hitem
    | bool b => simp at hitem
    | num n => simp at hitem
    | str s => simp at hitem
    | arr es => simp at hitem

theorem Py.strList_ok (txs : List Json) (hstr : ∀ t ∈ txs, ∃ s, t = Json.str s) :
    ∃ ss, Py.strList txs = .ok ss := by
  induction txs with
  | nil => exact ⟨[], rfl⟩
  | cons t ts iht =>
    obtain ⟨s, hs⟩ := hstr t (by simp)
    obtain ⟨ss, hss⟩ := iht (fun x hx => hstr x (by simp [hx]))
    subst hs
    exact ⟨s :: ss, by simp [Py.strList, hss, bind, Except.bind, pure, Except.pure]⟩

theorem Py.joinSpace_ok (txs : List Json) (hstr : ∀ t ∈ txs, ∃ s, t = Json.str s) :
    ∃ s, Py.joinSpace txs = .ok s := by
  obtain ⟨ss, hss⟩ := Py.strList_ok txs hstr
  exact ⟨String.intercalate " " ss, by simp [Py.joinSpace, hss, bind, Except.bind, pure,
    Except.pure]⟩

theorem normalize_content_ok (c : Json) (h : wfContent c = true) :
    ∃ r, normalize_content c = .ok r := by
  cases c with
  | arr items =>
    unfold wfContent at h
    simp only [List.all_eq_true] at h
    obtain ⟨txs, hct, hstr⟩ := collectTexts_ok items h
    obtain ⟨s, hs⟩ := Py.joinSpace_ok txs hstr
    exact ⟨some s, by simp [normalize_content, hct, hs, bind, Except.bind, pure, Except.pure]⟩
  | null => exact ⟨none, rfl⟩
  | bool b => exact ⟨none, rfl⟩
  | num n => exact ⟨none, rfl⟩
  | str s => exact ⟨some s, rfl⟩
  | obj ms => exact ⟨none, rfl⟩

theorem any_key_lookup (ms : List (String × Json)) (k : String) :
    (ms.any (fun kv => kv.1 == k)) = (ms.lookup k).isSome := by
  induction ms with
  | nil => rfl
  | cons kv ms ih =>
    obtain ⟨k1, v⟩ := kv
    by_cases h : k = k1
    · simp [List.lookup, h]
    · have hb1 : (k1 == k) = false := by simpa using Ne.symm h
      have hb2 : (k == k1) = false := by simpa using h
      simp [List.lookup, hb1, hb2, ih]

theorem isSome_ex {o : Option Json} (h : o.isSome = true) : ∃ v, o = some v := by
  cases o with
  | none => simp at h
  | some v => exact ⟨v, rfl⟩

theorem band_true {a b : Bool} (h : (a && b) = true) : a = true ∧ b = true := by
  simp at h
  exact h

theorem bor_true {a b : Bool} (h : (a || b) = true) : a = true ∨ b = true := by
  simp at h
  exact h

theorem extractToolCalls_ok (items : List Json) (h : ∀ item ∈ items, wfItem item = true) :
    ∃ tcs, extractToolCalls items = .ok tcs := by
  induction items with
  | nil => exact ⟨[], rfl⟩
  | cons item rest ih =>
    obtain ⟨tcs, hrec⟩ := ih (fun i hi => h i (by simp [hi]))
    have hitem := h item (by simp)
    cases item with
    | obj ms =>
      by_cases ht : ((ms.lookup "type").getD .null) = Json.str "tool_use"
      · replace hitem :
          ((((ms.lookup "type").getD .null != .str "text") ||
            (match (ms.lookup "text").getD (.str "") with
             | Json.str _ => true | _ => false)) &&
           (((ms.lookup "type").getD .null != .str "tool_use") ||
            ((ms.lookup "id").isSome && (ms.lookup "name").isSome &&
              (ms.lookup "input").isSome))) = true := hitem
        have h2 := (band_true hitem).2
        rcases bor_true h2 with h2 | h2
        · exact absurd ht (by simpa using h2)
        have h3 := band_true h2
        have h4 := band_true h3.1
        obtain ⟨vid, hvid⟩ := isSome_ex h4.1
        obtain ⟨vn, hvn⟩ := isSome_ex h4.2
        obtain ⟨vi, hvi⟩ := isSome_ex h3.2
        refine ⟨Json.obj [("type", .str "function"), ("id", vid),
                 ("function", .obj [("name", vn), ("arguments", .str (dumps vi))])] :: tcs, ?_⟩
        simp [extractToolCalls, Py.get, Py.getD, ht, toolCallEntry, Py.getItem, hvid, hvn, hvi,
          hrec, bind, Except.bind, pure, Except.pure]
      · exact ⟨tcs, by simp [extractToolCalls, Py.get, Py.getD, ht, hrec, bind, Except.bind]⟩
    | null => simp [wfItem] at hitem
    | bool b => simp [wfItem] at hitem
    | num n => simp [wfItem] at hitem
    | str s => simp [wfItem] at hitem
    | arr es => simp [wfItem] at hitem

theorem toolResultMessages_ok (items : List Json) (h : ∀ item ∈ items, wfItem item = true) :
    ∃ trs, toolResultMessages items = .ok trs := by
  induction items with
  | nil => exact ⟨[], rfl⟩
  | cons item rest ih =>
    obtain ⟨trs, hrec⟩ := ih (fun i hi => h i (by simp [hi]))
    have hitem := h item (by simp)
    cases item with
    | obj ms =>
      by_cases ht : ((ms.lookup "type").getD .null) = Json.str "tool_result"
      · refine ⟨Json.obj [("role", .str "tool"), ("content", (ms.lookup "content").getD (.str "")),
                 ("tool_call_id", (ms.lookup "tool_use_id").getD .null)] :: trs, ?_⟩
        simp [toolResultMessages, Py.get, Py.getD, ht, hrec, bind, Except.bind, pure, Except.pure]
      · exact ⟨trs, by simp [toolResultMessages, Py.get, Py.getD, ht, hrec, bind, Except.bind]⟩
    | null => simp [wfItem] at hitem
    | bool b => simp [wfItem] at hitem
    | num n => simp [wfItem] at hitem
    | str s => simp [wfItem] at hitem
    | arr es => simp [wfItem] at hitem

theorem ite_ok_ex {α : Type} (c : Prop) [Decidable c] (a b : α) :
    ∃ x, (if c then (Except.ok a : Except String α) else Except.ok b) = Except.ok x := by
  by_cases h : c <;> simp [h]

theorem derivedMessages_ok (m : Json) (h : wfMessage m = true) :
    ∃ der, derivedMessages m = .ok der := by
  cases m with
  | obj ms =>
    replace h : wfContent ((ms.lookup "content").getD .null) = true := h
    cases hc : (ms.lookup "content").getD .null with
    | arr items =>
      rw [hc] at h
      replace h : items.all wfItem = true := h
      simp only [List.all_eq_true] at h
      obtain ⟨tcs, htcs⟩ := extractToolCalls_ok items h
      obtain ⟨nr, hn⟩ := normalize_content_ok (Json.arr items)
        (by simpa [wfContent, List.all_eq_true] using h)
      simp only [derivedMessages, Py.get, Py.getD, hc, hn, htcs, bind, Except.bind, pure,
        Except.pure]
      exact ite_ok_ex _ _ _
    | null =>
      simp only [derivedMessages, Py.get, Py.getD, hc, normalize_content, bind, Except.bind,
        pure, Except.pure]
      exact ite_ok_ex _ _ _
    | bool b =>
      simp only [derivedMessages, Py.get, Py.getD, hc, normalize_content, bind, Except.bind,
        pure, Except.pure]
      exact ite_ok_ex _ _ _
    | num n =>
      simp only [derivedMessages, Py.get, Py.getD, hc, normalize_content, bind, Except.bind,
        pure, Except.pure]
      exact ite_ok_ex _ _ _
    | str s =>
      simp only [derivedMessages, Py.get, Py.getD, hc, normalize_content, bind, Except.bind,
        pure, Except.pure]
      exact ite_ok_ex _ _ _
    | obj mms =>
      simp only [derivedMessages, Py.get, Py.getD, hc, normalize_content, bind, Except.bind,
        pure, Except.pure]
      exact ite_ok_ex _ _ _
  | null => simp [wfMessage] at h
  | bool b => simp [wfMessage] at h
  | num n => simp [wfMessage] at h
  | str s => simp [wfMessage] at h
  | arr es => simp [wfMessage] at h

theorem toolResultsOfContent_ok (m : Json) (h : wfMessage m = true) :
    ∃ trs, toolResultsOfContent m = .ok trs := by
  cases m with
  | obj ms =>
    replace h : wfContent ((ms.lookup "content").getD .null) = true := h
    cases hc : (ms.lookup "content").getD .null with
    | arr items =>
      rw [hc] at h
      obtain ⟨trs, htrs⟩ := toolResultMessages_ok items
        (by simpa [wfContent, List.all_eq_true] using h)
      exact ⟨trs, by simp [toolResultsOfContent, Py.get, Py.getD, hc, htrs, bind, Except.bind]⟩
    | null => exact ⟨[], by simp [toolResultsOfContent, Py.get, Py.getD, hc, bind, Except.bind]⟩
    | bool b => exact ⟨[], by simp [toolResultsOfContent, Py.get, Py.getD, hc, bind, Except.bind]⟩
    | num n => exact ⟨[], by simp [toolResultsOfContent, Py.get, Py.getD, hc, bind, Except.bind]⟩
    | str s => exact ⟨[], by simp [toolResultsOfContent, Py.get, Py.getD, hc, bind, Except.bind]⟩
    | obj mms => exact ⟨[], by simp [toolResultsOfContent, Py.get, Py.getD, hc, bind, Except.bind]⟩
  | null => simp [wfMessage] at h
  | bool b => simp [wfMessage] at h
  | num n => simp [wfMessage] at h
  | str s => simp [wfMessage] at h
  | arr es => simp [wfMessage] at h

theorem translateMessage_ok (m : Json) (h : wfMessage m = true) :
    ∃ res, translateMessage m = .ok res := by
  obtain ⟨der, hder⟩ := derivedMessages_ok m h
  obtain ⟨trs, htrs⟩ := toolResultsOfContent_ok m h
  exact ⟨der ++ trs, by simp [translateMessage, hder, htrs, bind, Except.bind, pure, Except.pure]⟩

theorem translateMessages_ok (msgs : List Json) (h : ∀ m ∈ msgs, wfMessage m = true) :
    ∃ res, translateMessages msgs = .ok res := by
  induction msgs with
  | nil => exact ⟨[], rfl⟩
  | cons m rest ih =>
    obtain ⟨res, hres⟩ := ih (fun x hx => h x (by simp [hx]))
    obtain ⟨a, ha⟩ := translateMessage_ok m (h m (by simp))
    exact ⟨a ++ res, by simp [translateMessages, ha, hres, bind, Except.bind, pure, Except.pure]⟩

theorem systemMessages_ok (kvs : List (String × Json))
    (h : (match kvs.lookup "system" with | some s => wfContent s | none => true) = true) :
    ∃ sys, systemMessages (.obj kvs) = .ok sys := by
  cases hk : kvs.lookup "system" with
  | none =>
    have hany : (kvs.any (fun kv => kv.1 == "system")) = false := by
      rw [any_key_lookup, hk]; rfl
    exact ⟨[], by simp [systemMessages, Py.containsKey, hany, bind, Except.bind, pure,
      Except.pure]⟩
  | some s =>
    rw [hk] at h
    have hany : (kvs.any (fun kv => kv.1 == "system")) = true := by
      rw [any_key_lookup, hk]; rfl
    obtain ⟨nr, hn⟩ := normalize_content_ok s h
    simp only [systemMessages, Py.containsKey, hany, if_true, Py.getItem, hk, hn, bind,
      Except.bind]
    cases nr with
    | none => exact ⟨[], rfl⟩
    | some t =>
      by_cases he : t = ""
      · simp only [he, if_pos rfl]
        exact ⟨[], rfl⟩
      · simp only [if_neg he]
        exact ⟨_, rfl⟩

theorem translateToolList_ok (ts : List Json) (h : ∀ t ∈ ts, wfTool t = true) :
    ∃ out, translateToolList ts = .ok out := by
  induction ts with
  | nil => exact ⟨[], rfl⟩
  | cons t ts ih =>
    obtain ⟨out, hout⟩ := ih (fun x hx => h x (by simp [hx]))
    have hw := h t (by simp)
    cases t with
    | obj ms =>
      replace hw : ((ms.lookup "name").isSome && (ms.lookup "description").isSome &&
        (ms.lookup "input_schema").isSome) = true := hw
      have h1 := band_true hw
      have h2 := band_true h1.1
      obtain ⟨vn, hvn⟩ := isSome_ex h2.1
      obtain ⟨vd, hvd⟩ := isSome_ex h2.2
      obtain ⟨vs, hvs⟩ := isSome_ex h1.2
      refine ⟨Json.obj [("type", .str "function"),
               ("function", .obj [("name", vn), ("description", vd),
                                  ("parameters", remove_uri_format vs)])] :: out, ?_⟩
      simp [translateToolList, translateTool, Py.getItem, hvn, hvd, hvs, hout, bind,
        Except.bind, pure, Except.pure]
    | null => simp [wfTool] at hw
    | bool b => simp [wfTool] at hw
    | num n => simp [wfTool] at hw
    | str s => simp [wfTool] at hw
    | arr es => simp [wfTool] at hw

theorem translateTools_ok (kvs : List (String × Json))
    (h : (match kvs.lookup "tools" with
          | some (.arr ts) => ts.all wfTool
          | some _ => false
          | none => true) = true) :
    ∃ tools, translateTools (.obj kvs) = .ok tools := by
  cases hk : kvs.lookup "tools" with
  | none =>
    exact ⟨[], by simp [translateTools, Py.getD, hk, Py.iter, bind, Except.bind, pure,
      Except.pure, translateToolList]⟩
  | some t =>
    rw [hk] at h
    cases t with
    | arr ts =>
      obtain ⟨out, hout⟩ := translateToolList_ok ts (by simpa using h)
      exact ⟨out, by simp [translateTools, Py.getD, hk, Py.iter, bind, Except.bind, hout]⟩
    | null => simp at h
    | bool b => simp at h
    | num n => simp at h
    | str s => simp at h
    | obj mms => simp at h

/-- C7 (amended): request translation raises no error for any inbound request
whose payload is a mapping, whose `system` content and message contents are
well formed (block items are mappings; a `text`-typed item's `text` value is
a string when present; every `tool_use` block carries `id`, `name` and
`input`), whose `messages` value (when present) is a list of mappings, and
whose `tools` value (when present) is a list of mappings each carrying
`name`, `description` and `input_schema`.  Other malformed parts (missing
`role`, missing `tool_use_id`, absent text) degrade to omitted or null
fields.  A `tool_use` block lacking `id`/`name`/`input` or a tool definition
lacking one of its three keys raises `KeyError` instead — see the
counterexample. -/
theorem C7_request_translation_total_amended (r c : String) (p : Json)
    (h : wfPayload p = true) :
    ∃ out, translate_request r c p = .ok out := by
  cases p with
  | obj kvs =>
    unfold wfPayload at h
    simp only [Bool.and_eq_true] at h
    obtain ⟨⟨hsys, hmsgs⟩, htools⟩ := h
    obtain ⟨sys, hs⟩ := systemMessages_ok kvs hsys
    obtain ⟨tools, htl⟩ := translateTools_ok kvs htools
    have hmm : ∃ res, ∃ items, Py.iter ((kvs.lookup "messages").getD (.arr [])) = .ok items ∧
        translateMessages items = .ok res := by
      cases hk : kvs.lookup "messages" with
      | none => exact ⟨[], [], rfl, rfl⟩
      | some t =>
        rw [hk] at hmsgs
        cases t with
        | arr msgs =>
          obtain ⟨res, hres⟩ := translateMessages_ok msgs (by simpa using hmsgs)
          exact ⟨res, msgs, rfl, hres⟩
        | null => simp at hmsgs
        | bool b => simp at hmsgs
        | num n => simp at hmsgs
        | str s => simp at hmsgs
        | obj mms => simp at hmsgs
    obtain ⟨res, items, hit, hres⟩ := hmm
    refine ⟨{ model := if Py.truthy ((kvs.lookup "thinking").getD .null) then r else c,
              messages := sys ++ res,
              max_tokens := (kvs.lookup "max_tokens").getD (.num 4096),
              temperature := (kvs.lookup "temperature").getD (.num 1),
              stream := (kvs.lookup "stream").getD (.bool false),
              tools := if tools.isEmpty then none else some tools }, ?_⟩
    simp [translate_request, Py.getD, Py.get, hs, hit, hres, htl, bind, Except.bind, pure,
      Except.pure]
  | null => simp [wfPayload] at h
  | bool b => simp [wfPayload] at h
  | num n => simp [wfPayload] at h
  | str s => simp [wfPayload] at h
  | arr es => simp [wfPayload] at h

/-- An inbound request whose single message carries a `tool_use` block with
no `id` (nor `name`/`input`). -/
def toolUseNoIdPayload : Json :=
  .obj [("messages", .arr [.obj [("role", .str "user"),
        ("content", .arr [.obj [("type", .str "tool_use")]])]])]

/-- C7, counterexample: on a request whose tool-use block lacks an `id`, the
translation raises (`item['id']`, line 107, is a bracket access), so the
handler returns its JSON error result instead of degrading the block to
omitted fields. -/
theorem C7_request_translation_total_counterexample :
    translate_request "r" "c" toolUseNoIdPayload = .error "KeyError: id" := rfl

/-- A fully well-formed inbound request exercising text, tool-use and
tool-result blocks plus a tool definition. -/
def wfWitnessPayload : Json :=
  .obj [("system", .str "be helpful"),
        ("messages", .arr [.obj [("role", .str "assistant"),
          ("content", .arr [
            .obj [("type", .str "text"), ("text", .str "hi")],
            .obj [("type", .str "tool_use"), ("id", .str "t1"), ("name", .str "f"),
                  ("input", .obj [])],
            .obj [("type", .str "tool_result"), ("tool_use_id", .str "t1"),
                  ("content", .str "42")]])]]),
        ("tools", .arr [.obj [("name", .str "f"), ("description", .str "d"),
                              ("input_schema", .obj [("type", .str "object")])]])]

/-- C7, witness: the amended claim applied to `wfWitnessPayload`. -/
theorem C7_request_translation_total_witness :
    wfPayload wfWitnessPayload = true ∧
    ∃ out, translate_request "r" "c" wfWitnessPayload = .ok out :=
  ⟨by decide, C7_request_translation_total_amended "r" "c" wfWitnessPayload (by decide)⟩

/-! ### Claim C8 -/

theorem translateMessages_append_ok (a b : List Json) (res : List Json)
    (h : translateMessages (a ++ b) = .ok res) :
    ∃ ra rb, translateMessages a = .ok ra ∧ translateMessages b = .ok rb ∧ res = ra ++ rb := by
  induction a generalizing res with
  | nil => exact ⟨[], res, rfl, h, rfl⟩
  | cons m rest ih =>
    simp only [List.cons_append, translateMessages, bind, Except.bind, List.append_eq] at h
    cases hseg : translateMessage m with
    | error e => rw [hseg] at h; cases h
    | ok seg =>
      rw [hseg] at h
      cases hrest : translateMessages (rest ++ b) with
      | error e => rw [hrest] at h; cases h
      | ok rres =>
        rw [hrest] at h
        simp only [pure, Except.pure, Except.ok.injEq] at h
        obtain ⟨ra, rb, hra, hrb, hsplit⟩ := ih rres hrest
        refine ⟨seg ++ ra, rb, ?_, hrb, by simp [← h, hsplit]⟩
        simp [translateMessages, hseg, hra, bind, Except.bind, pure, Except.pure]

theorem translateMessage_parts (m : Json) (seg : List Json)
    (h : translateMessage m = .ok seg) :
    ∃ der trs, derivedMessages m = .ok der ∧ toolResultsOfContent m = .ok trs ∧
      seg = der ++ trs := by
  simp only [translateMessage, bind, Except.bind] at h
  cases hder : derivedMessages m with
  | error e => rw [hder] at h; cases h
  | ok der =>
    rw [hder] at h
    cases htrs : toolResultsOfContent m with
    | error e => rw [htrs] at h; cases h
    | ok trs =>
      rw [htrs] at h
      simp only [pure, Except.pure, Except.ok.injEq] at h
      exact ⟨der, trs, rfl, rfl, h.symm⟩

/-- A successful run of the tool-result loop yields exactly the
`tool_result`-typed items, in their original order, each mapped to its
synthetic `tool`-role message. -/
theorem toolResultMessages_spec (items : List Json) (trs : List Json)
    (h : toolResultMessages items = .ok trs) :
    trs = (items.filter (fun it => itemTypeIs it "tool_result")).map mkToolResultMsg := by
  induction items generalizing trs with
  | nil =>
    replace h : Except.ok ([] : List Json) = .ok trs := h
    cases h
    rfl
  | cons item rest ih =>
    cases item with
    | obj ms =>
      by_cases ht : ((ms.lookup "type").getD .null) = Json.str "tool_result"
      · simp only [toolResultMessages, Py.get, Py.getD, bind, Except.bind, ht, if_pos] at h
        cases hrec : toolResultMessages rest with
        | error e => rw [hrec] at h; simp at h
        | ok rtrs =>
          rw [hrec] at h
          simp only [pure, Except.pure, Except.ok.injEq] at h
          rw [← h, ih rtrs hrec]
          simp [List.filter_cons, itemTypeIs, ht, mkToolResultMsg]
      · simp only [toolResultMessages, Py.get, Py.getD, bind, Except.bind, ht, if_neg] at h
        have hrec := ih trs h
        simpa [List.filter_cons, itemTypeIs, ht] using hrec
    | null => simp [toolResultMessages, Py.get, Py.getD, bind, Except.bind] at h
    | bool b => simp [toolResultMessages, Py.get, Py.getD, bind, Except.bind] at h
    | num n => simp [toolResultMessages, Py.get, Py.getD, bind, Except.bind] at h
    | str s => simp [toolResultMessages, Py.get, Py.getD, bind, Except.bind] at h
    | arr es => simp [toolResultMessages, Py.get, Py.getD, bind, Except.bind] at h

/-- C8: in every successfully translated request, the outbound message list
decomposes around any inbound message `m` as
`system ++ (earlier messages) ++ (derived(m) ++ toolResults(m)) ++ (later
messages)`: the synthetic `tool`-role messages of `m` sit immediately after
the message derived from `m`, and when `m`'s content is a block list they are
exactly its `tool_result` blocks in original order, each carrying
`tool_call_id` = the block's `tool_use_id` and the block's result content
(see `mkToolResultMsg`). -/
theorem C8_tool_result_placement (r c : String) (kvs : List (String × Json))
    (l1 l2 : List Json) (m : Json) (out : OpenAIPayload)
    (hok : translate_request r c (.obj kvs) = .ok out)
    (hm : kvs.lookup "messages" = some (.arr (l1 ++ m :: l2))) :
    ∃ sys pre post der trs,
      systemMessages (.obj kvs) = .ok sys ∧
      translateMessages l1 = .ok pre ∧ translateMessages l2 = .ok post ∧
      derivedMessages m = .ok der ∧ toolResultsOfContent m = .ok trs ∧
      out.messages = sys ++ pre ++ (der ++ trs) ++ post ∧
      (∀ mkvs items, m = .obj mkvs → (mkvs.lookup "content").getD .null = .arr items →
        trs = (items.filter (fun it => itemTypeIs it "tool_result")).map mkToolResultMsg) := by
  unfold translate_request at hok
  cases hsys : systemMessages (Json.obj kvs) with
  | error e => simp [hsys, Py.getD, bind, Except.bind] at hok
  | ok sys =>
  cases hit : Py.iter ((kvs.lookup "messages").getD (.arr [])) with
  | error e => simp [hsys, hit, Py.getD, bind, Except.bind] at hok
  | ok items =>
  cases hmsgs : translateMessages items with
  | error e => simp [hsys, hit, hmsgs, Py.getD, bind, Except.bind] at hok
  | ok msgs =>
  cases htools : translateTools (Json.obj kvs) with
  | error e => simp [hsys, hit, hmsgs, htools, Py.getD, bind, Except.bind] at hok
  | ok tools =>
  have hitems : items = l1 ++ m :: l2 := by
    rw [hm] at hit
    simpa [Py.iter] using hit.symm
  subst hitems
  obtain ⟨pre, rmb, hpre, hmb, hsplit⟩ := translateMessages_append_ok l1 (m :: l2) msgs hmsgs
  have hmb2 : ∃ seg post, translateMessage m = .ok seg ∧ translateMessages l2 = .ok post ∧
      rmb = seg ++ post := by
    simp only [translateMessages, bind, Except.bind] at hmb
    cases hseg : translateMessage m with
    | error e => rw [hseg] at hmb; cases hmb
    | ok seg =>
      rw [hseg] at hmb
      cases hrest : translateMessages l2 with
      | error e => rw [hrest] at hmb; cases hmb
      | ok post =>
        rw [hrest] at hmb
        simp only [pure, Except.pure, Except.ok.injEq] at hmb
        exact ⟨seg, post, rfl, rfl, hmb.symm⟩
  obtain ⟨seg, post, hseg, hpost, hsegsplit⟩ := hmb2
  obtain ⟨der, trs, hder, htrs, hparts⟩ := translateMessage_parts m seg hseg
  have hout : out.messages = sys ++ msgs := by
    simp only [hsys, hit, hmsgs, htools, Py.getD, Py.get, bind, Except.bind, pure, Except.pure,
      Except.ok.injEq] at hok
    rw [← hok]
  refine ⟨sys, pre, post, der, trs, rfl, hpre, hpost, hder, htrs, ?_, ?_⟩
  · rw [hout, hsplit, hsegsplit, hparts]
    simp [List.append_assoc]
  · intro mkvs citems hm1 hc
    subst hm1
    have : toolResultsOfContent (Json.obj mkvs) = toolResultMessages citems := by
      simp [toolResultsOfContent, Py.get, Py.getD, hc, bind, Except.bind]
    rw [this] at htrs
    exact toolResultMessages_spec citems trs htrs

/-- Scenario B of the spec: a request whose one message carries text and a
`tool_result` block with `tool_use_id: "abc"`. -/
def scenarioBPayload : Json :=
  .obj [("messages", .arr [.obj [("role", .str "user"),
        ("content", .arr [
          .obj [("type", .str "text"), ("text", .str "here you go")],
          .obj [("type", .str "tool_result"), ("tool_use_id", .str "abc"),
                ("content", .str "42")]])]])]

/-- The outbound request for `scenarioBPayload`: the `tool`-role message with
`tool_call_id: "abc"` sits immediately after the message derived from its
parent. -/
def scenarioBOut : OpenAIPayload :=
  { model := "c",
    messages := [.obj [("role", .str "user"), ("content", .str "here you go")],
                 .obj [("role", .str "tool"), ("content", .str "42"),
                       ("tool_call_id", .str "abc")]],
    max_tokens := .num 4096, temperature := .num 1, stream := .bool false, tools := none }

/-- C8, witness: the placement theorem applied to scenario B. -/
theorem C8_tool_result_placement_witness :
    translate_request "r" "c" scenarioBPayload = .ok scenarioBOut ∧
    (∃ sys pre post der trs,
      systemMessages scenarioBPayload = .ok sys ∧
      translateMessages [] = .ok pre ∧ translateMessages [] = .ok post ∧
      derivedMessages (.obj [("role", .str "user"),
        ("content", .arr [
          .obj [("type", .str "text"), ("text", .str "here you go")],
          .obj [("type", .str "tool_result"), ("tool_use_id", .str "abc"),
                ("content", .str "42")]])]) = .ok der ∧
      toolResultsOfContent (.obj [("role", .str "user"),
        ("content", .arr [
          .obj [("type", .str "text"), ("text", .str "here you go")],
          .obj [("type", .str "tool_result"), ("tool_use_id", .str "abc"),
                ("content", .str "42")]])]) = .ok trs ∧
      scenarioBOut.messages = sys ++ pre ++ (der ++ trs) ++ post ∧
      (∀ mkvs items, (Json.obj [("role", .str "user"),
        ("content", .arr [
          .obj [("type", .str "text"), ("text", .str "here you go")],
          .obj [("type", .str "tool_result"), ("tool_use_id", .str "abc"),
                ("content", .str "42")]])]) = .obj mkvs →
        (mkvs.lookup "content").getD .null = .arr items →
        trs = (items.filter (fun it => itemTypeIs it "tool_result")).map mkToolResultMsg)) :=
  ⟨rfl, C8_tool_result_placement "r" "c"
    [("messages", .arr [.obj [("role", .str "user"),
        ("content", .arr [
          .obj [("type", .str "text"), ("text", .str "here you go")],
          .obj [("type", .str "tool_result"), ("tool_use_id", .str "abc"),
                ("content", .str "42")]])]])]
    [] [] _ scenarioBOut rfl rfl⟩

/-! ## `json.loads` (used on line 199)

A recursive-descent parser for the JSON grammar over the values modelled
here (JSON numbers restricted to integers; Python would additionally accept
floats).  Recursion is on an explicit fuel, chosen generously by the
caller. -/

/-- JSON whitespace. -/
def jsonWs (c : Char) : Bool := c = ' ' || c = '\t' || c = '\n' || c = '\r'

/-- Drop leading JSON whitespace. -/
def dropWs : List Char → List Char
  | [] => []
  | c :: cs => if jsonWs c then dropWs cs else c :: cs

/-- One hex digit's value. -/
def hexVal (c : Char) : Option Nat :=
  if '0' ≤ c ∧ c ≤ '9' then some (c.toNat - '0'.toNat)
  else if 'a' ≤ c ∧ c ≤ 'f' then some (c.toNat - 'a'.toNat + 10)
  else if 'A' ≤ c ∧ c ≤ 'F' then some (c.toNat - 'A'.toNat + 10)
  else none

/-- Four hex digits (`\uXXXX`). -/
def readHex4 : List Char → Option (Nat × List Char)
  | a :: b :: c :: d :: r => do
    let ha ← hexVal a
    let hb ← hexVal b
    let hc ← hexVal c
    let hd ← hexVal d
    return (((ha * 16 + hb) * 16 + hc) * 16 + hd, r)
  | _ => none

/-- The body of a JSON string literal, after the opening quote;
`acc` holds the decoded characters in reverse. -/
def readStr : Nat → List Char → List Char → Option (String × List Char)
  | 0, _, _ => none
  | fuel + 1, acc, cs =>
    match cs with
    | [] => none
    | '"' :: rest => some (String.mk acc.reverse, rest)
    | '\\' :: e :: rest =>
      match e with
      | '"' => readStr fuel ('"' :: acc) rest
      | '\\' => readStr fuel ('\\' :: acc) rest
      | '/' => readStr fuel ('/' :: acc) rest
      | 'n' => readStr fuel ('\n' :: acc) rest
      | 't' => readStr fuel ('\t' :: acc) rest
      | 'r' => readStr fuel ('\r' :: acc) rest
      | 'b' => readStr fuel (Char.ofNat 8 :: acc) rest
      | 'f' => readStr fuel (Char.ofNat 12 :: acc) rest
      | 'u' =>
        match readHex4 rest with
        | some (n, r2) => readStr fuel (Char.ofNat n :: acc) r2
        | none => none
      | _ => none
    | c :: rest => readStr fuel (c :: acc) rest

/-- Digits as values, longest prefix. -/
def readDigits : List Char → (List Nat × List Char)
  | [] => ([], [])
  | c :: cs =>
    if c.isDigit then
      let (ds, r) := readDigits cs
      ((c.toNat - '0'.toNat) :: ds, r)
    else ([], c :: cs)

/-- Value of a digit list. -/
def digitsVal (ds : List Nat) : Nat := ds.foldl (fun a d => a * 10 + d) 0

mutual

/-- One JSON value, with leading whitespace. -/
def parseVal : Nat → List Char → Option (Json × List Char)
  | 0, _ => none
  | fuel + 1, cs =>
    match dropWs cs with
    | 'n' :: 'u' :: 'l' :: 'l' :: r => some (.null, r)
    | 't' :: 'r' :: 'u' :: 'e' :: r => some (.bool true, r)
    | 'f' :: 'a' :: 'l' :: 's' :: 'e' :: r => some (.bool false, r)
    | '"' :: r => (readStr (r.length + 1) [] r).map (fun sr => (.str sr.1, sr.2))
    | '[' :: r =>
      match dropWs r with
      | ']' :: r2 => some (.arr [], r2)
      | _ => (parseItems fuel r).map (fun er => (.arr er.1, er.2))
    | '\x7b' :: r =>
      match dropWs r with
      | '\x7d' :: r2 => some (.obj [], r2)
      | _ => (parseMembers fuel r).map (fun mr => (.obj mr.1, mr.2))
    | '-' :: r =>
      match readDigits r with
      | ([], _) => none
      | (ds, r2) => some (.num (-(digitsVal ds : Int)), r2)
    | c :: r =>
      if c.isDigit then
        match readDigits (c :: r) with
        | (ds, r2) => some (.num (digitsVal ds : Int), r2)
      else none
    | [] => none

/-- The elements of a non-empty JSON array, up to and including `']'`. -/
def parseItems : Nat → List Char → Option (List Json × List Char)
  | 0, _ => none
  | fuel + 1, cs => do
    let (v, r) ← parseVal fuel cs
    match dropWs r with
    | ',' :: r2 => (parseItems fuel r2).map (fun er => (v :: er.1, er.2))
    | ']' :: r2 => some ([v], r2)
    | _ => none

/-- The members of a non-empty JSON object, up to and including the closing
brace. -/
def parseMembers : Nat → List Char → Option (List (String × Json) × List Char)
  | 0, _ => none
  | fuel + 1, cs =>
    match dropWs cs with
    | '"' :: r => do
      let (k, r2) ← readStr (r.length + 1) [] r
      match dropWs r2 with
      | ':' :: r3 => do
        let (v, r4) ← parseVal fuel r3
        match dropWs r4 with
        | ',' :: r5 => (parseMembers fuel r5).map (fun mr => ((k, v) :: mr.1, mr.2))
        | '\x7d' :: r5 => some ([(k, v)], r5)
        | _ => none
      | _ => none
    | _ => none

end

/-- Python's `json.loads` on a string: parse one value, allow trailing
whitespace only; any failure raises `json.decoder.JSONDecodeError`. -/
def json_loads (s : String) : Except String Json :=
  match parseVal (2 * s.length + 2) s.data with
  | some (v, rest) =>
    if (dropWs rest).isEmpty then .ok v
    else .error "json.decoder.JSONDecodeError: Extra data"
  | none => .error "json.decoder.JSONDecodeError: Expecting value"

/-! ## Non-streaming response translation (`handle_non_stream`, lines 176–217) -/

/-- The source-protocol response document built on lines 203–215
(`type` is always `'message'` and `stop_sequence` always null, so they are
not repeated here). -/
structure AnthropicResponse where
  id : String
  role : Json
  model : String
  content : List Json
  stop_reason : String
  usage_input : Json
  usage_output : Json
deriving Repr, DecidableEq

/-- The `tool_use` content blocks of the loop on lines 193–201, in backend
order: `tool_call['id']`, `tool_call['function']['name']` and
`json.loads(tool_call['function']['arguments'])` (which requires a string
and raises on malformed JSON). -/
def toolUseParts : List Json → Except String (List Json)
  | [] => .ok []
  | tc :: rest => do
    let i ← Py.getItem tc "id"
    let f ← Py.getItem tc "function"
    let n ← Py.getItem f "name"
    let a ← Py.getItem f "arguments"
    let argStr ← (match a with
      | Json.str s => Except.ok s
      | _ => Except.error "TypeError: the JSON object must be str")
    let inp ← json_loads argStr
    let es ← toolUseParts rest
    return .obj [("type", .str "tool_use"), ("id", i), ("name", n), ("input", inp)] :: es

/-- The body of `handle_non_stream` (lines 186–217) after the backend reply
has been received and parsed into `data`; `modelName` is `payload['model']`
and `gid` the freshly generated id used when the backend id is missing or
empty.  An `Except.error` is an exception propagating to `messages_proxy`'s
handler. -/
def handle_non_stream (modelName gid : String) (data : Json) :
    Except String AnthropicResponse := do
  let choices ← Py.getItem data "choices"
  let choice ← Py.item0 choices
  let msg ← Py.getItem choice "message"
  let contentVal ← Py.get msg "content"
  let textParts : List Json :=
    if Py.truthy contentVal then [.obj [("type", .str "text"), ("text", contentVal)]] else []
  let tcsRaw ← Py.getD msg "tool_calls" (.arr [])
  let tcs ← Py.iter (if Py.truthy tcsRaw then tcsRaw else .arr [])
  let toolParts ← toolUseParts tcs
  let idRaw ← Py.getD data "id" (.str "")
  let idStr ← (match idRaw with
    | Json.str s => Except.ok (s.replace "chatcmpl" "msg")
    | _ => Except.error "AttributeError: replace")
  let role ← Py.getD msg "role" (.str "assistant")
  let fr ← Py.get choice "finish_reason"
  let sr ← map_stop_reason fr
  let usage ← Py.getItem data "usage"
  let inTok ← Py.getItem usage "prompt_tokens"
  let outTok ← Py.getItem usage "completion_tokens"
  return { id := if idStr = "" then gid else idStr,
           role := role,
           model := modelName,
           content := textParts ++ toolParts,
           stop_reason := sr,
           usage_input := inTok,
           usage_output := outTok }

/-- What the caller of `/v1/messages` observes on the non-streaming path:
either the serialized source-protocol response, or the handler's JSON error
body with status 500 (lines 171–173). -/
inductive HandlerResult where
  | success (resp : AnthropicResponse)
  | failure (message : String)
deriving Repr, DecidableEq

/-- The non-streaming path of `messages_proxy` downstream of the backend
call: `handle_non_stream` with the generic `except` clause around it. -/
def nonStreamEndpoint (modelName gid : String) (data : Json) : HandlerResult :=
  match handle_non_stream modelName gid data with
  | .ok r => .success r
  | .error e => .failure e

/-- A successful run of the tool-call loop pairs each backend tool call, in
order, with a `tool_use` block whose `input` is the decode of that call's
argument string. -/
theorem toolUseParts_forall2 (tcs l : List Json) (h : toolUseParts tcs = .ok l) :
    List.Forall₂ (fun tc part => ∃ i n s inp,
      Py.getItem tc "id" = .ok i ∧
      (do let f ← Py.getItem tc "function"
          Py.getItem f "name") = .ok n ∧
      (do let f ← Py.getItem tc "function"
          Py.getItem f "arguments") = .ok (.str s) ∧
      json_loads s = .ok inp ∧
      part = .obj [("type", .str "tool_use"), ("id", i), ("name", n), ("input", inp)])
      tcs l := by
  induction tcs generalizing l with
  | nil =>
    replace h : Except.ok ([] : List Json) = .ok l := h
    cases h
    exact List.Forall₂.nil
  | cons tc rest ih =>
    simp only [toolUseParts] at h
    cases hi : Py.getItem tc "id" with
    | error e => simp [hi, except_bind_error] at h
    | ok i =>
    simp only [hi, except_bind_ok] at h
    cases hf : Py.getItem tc "function" with
    | error e => simp [hf, except_bind_error] at h
    | ok f =>
    simp only [hf, except_bind_ok] at h
    cases hn : Py.getItem f "name" with
    | error e => simp [hn, except_bind_error] at h
    | ok n =>
    simp only [hn, except_bind_ok] at h
    cases ha : Py.getItem f "arguments" with
    | error e => simp [ha, except_bind_error] at h
    | ok a =>
    simp only [ha, except_bind_ok] at h
    cases a with
    | str s =>
      simp only [except_bind_ok] at h
      cases hl : json_loads s with
      | error e => simp [hl, except_bind_error] at h
      | ok inp =>
      simp only [hl, except_bind_ok] at h
      cases hrest : toolUseParts rest with
      | error e => simp [hrest, except_bind_error] at h
      | ok es =>
      simp only [hrest, except_bind_ok] at h
      simp only [pure, Except.pure, Except.ok.injEq] at h
      rw [← h]
      refine List.Forall₂.cons ⟨i, n, s, inp, hi, ?_, ?_, hl, rfl⟩ (ih es hrest)
      · simp [hf, hn, bind, Except.bind]
      · simp [hf, ha, bind, Except.bind]
    | null => simp [except_bind_error] at h
    | bool b => simp [except_bind_error] at h
    | num k => simp [except_bind_error] at h
    | arr es => simp [except_bind_error] at h
    | obj ms => simp [except_bind_error] at h

theorem forall2_mem_left {α β : Type} {R : α → β → Prop} {as : List α} {bs : List β}
    (h : List.Forall₂ R as bs) {a : α} (ha : a ∈ as) : ∃ b ∈ bs, R a b := by
  induction h with
  | nil => cases ha
  | cons hr hrest ih =>
    rcases List.mem_cons.mp ha with rfl | ha2
    · exact ⟨_, by simp, hr⟩
    · obtain ⟨b, hb, hrb⟩ := ih ha2
      exact ⟨b, by simp [hb], hrb⟩

/-- Inversion of a successful non-streaming translation: every fallible step
succeeded, and the content block list is the optional text block followed by
the decoded tool-use blocks. -/
theorem handle_non_stream_ok_parts (modelName gid : String) (data : Json)
    (resp : AnthropicResponse) (h : handle_non_stream modelName gid data = .ok resp) :
    ∃ choices choice msg cv tcsRaw tcs toolParts,
      Py.getItem data "choices" = .ok choices ∧ Py.item0 choices = .ok choice ∧
      Py.getItem choice "message" = .ok msg ∧ Py.get msg "content" = .ok cv ∧
      Py.getD msg "tool_calls" (.arr []) = .ok tcsRaw ∧
      Py.iter (if Py.truthy tcsRaw then tcsRaw else .arr []) = .ok tcs ∧
      toolUseParts tcs = .ok toolParts ∧
      resp.content =
        (if Py.truthy cv then [Json.obj [("type", .str "text"), ("text", cv)]] else [])
          ++ toolParts := by
  simp only [handle_non_stream] at h
  cases g1 : Py.getItem data "choices" with
  | error e => simp [g1, except_bind_error] at h
  | ok choices =>
  simp only [g1, except_bind_ok] at h
  cases g2 : Py.item0 choices with
  | error e => simp [g2, except_bind_error] at h
  | ok choice =>
  simp only [g2, except_bind_ok] at h
  cases g3 : Py.getItem choice "message" with
  | error e => simp [g3, except_bind_error] at h
  | ok msg =>
  simp only [g3, except_bind_ok] at h
  cases g4 : Py.get msg "content" with
  | error e => simp [g4, except_bind_error] at h
  | ok cv =>
  simp only [g4, except_bind_ok] at h
  cases g5 : Py.getD msg "tool_calls" (.arr []) with
  | error e => simp [g5, except_bind_error] at h
  | ok tcsRaw =>
  simp only [g5, except_bind_ok] at h
  cases g6 : Py.iter (if Py.truthy tcsRaw then tcsRaw else .arr []) with
  | error e => simp [g6, except_bind_error] at h
  | ok tcs =>
  simp only [g6, except_bind_ok] at h
  cases g7 : toolUseParts tcs with
  | error e => simp [g7, except_bind_error] at h
  | ok toolParts =>
  simp only [g7, except_bind_ok] at h
  cases g8 : Py.getD data "id" (.str "") with
  | error e => simp [g8, except_bind_error] at h
  | ok idRaw =>
  simp only [g8, except_bind_ok] at h
  cases idRaw with
  | str ids =>
    simp only [except_bind_ok] at h
    cases g9 : Py.getD msg "role" (.str "assistant") with
    | error e => simp [g9, except_bind_error] at h
    | ok role =>
    simp only [g9, except_bind_ok] at h
    cases g10 : Py.get choice "finish_reason" with
    | error e => simp [g10, except_bind_error] at h
    | ok fr =>
    simp only [g10, except_bind_ok] at h
    cases g11 : map_stop_reason fr with
    | error e => simp [g11, except_bind_error] at h
    | ok sr =>
    simp only [g11, except_bind_ok] at h
    cases g12 : Py.getItem data "usage" with
    | error e => simp [g12, except_bind_error] at h
    | ok usage =>
    simp only [g12, except_bind_ok] at h
    cases g13 : Py.getItem usage "prompt_tokens" with
    | error e => simp [g13, except_bind_error] at h
    | ok inTok =>
    simp only [g13, except_bind_ok] at h
    cases g14 : Py.getItem usage "completion_tokens" with
    | error e => simp [g14, except_bind_error] at h
    | ok outTok =>
    simp only [g14, except_bind_ok] at h
    simp only [pure, Except.pure, Except.ok.injEq] at h
    refine ⟨choices, choice, msg, cv, tcsRaw, tcs, toolParts, rfl, g2, g3, g4, g5, g6, g7, ?_⟩
    rw [← h]
  | null => simp [except_bind_error] at h
  | bool b => simp [except_bind_error] at h
  | num n => simp [except_bind_error] at h
  | arr es => simp [except_bind_error] at h
  | obj ms => simp [except_bind_error] at h

/-! ### Claim C9 -/

/-- C9: on the non-streaming path, whenever some backend tool call's argument
string fails to decode as JSON, the endpoint returns the handler's JSON error
result (never a partial source-protocol response); and whenever a response is
returned, its content is the optional text block followed by one `tool_use`
block per backend tool call, in order, each `input` being exactly the decoded
value of that call's argument string. -/
theorem C9_nonstream_tool_args (modelName gid : String)
    (data choices choice msg tcsRaw : Json) (tcs : List Json)
    (h1 : Py.getItem data "choices" = .ok choices)
    (h2 : Py.item0 choices = .ok choice)
    (h3 : Py.getItem choice "message" = .ok msg)
    (h4 : Py.getD msg "tool_calls" (.arr []) = .ok tcsRaw)
    (h5 : Py.iter (if Py.truthy tcsRaw then tcsRaw else .arr []) = .ok tcs) :
    ((∃ tc ∈ tcs, ∃ s, (do let f ← Py.getItem tc "function"
                           Py.getItem f "arguments") = Except.ok (Json.str s) ∧
        ∃ e, json_loads s = .error e) →
      ∃ e, nonStreamEndpoint modelName gid data = .failure e) ∧
    (∀ resp, nonStreamEndpoint modelName gid data = .success resp →
      ∃ toolParts textParts,
        toolUseParts tcs = .ok toolParts ∧
        resp.content = textParts ++ toolParts ∧
        List.Forall₂ (fun tc part => ∃ i n s inp,
          Py.getItem tc "id" = .ok i ∧
          (do let f ← Py.getItem tc "function"
              Py.getItem f "name") = .ok n ∧
          (do let f ← Py.getItem tc "function"
              Py.getItem f "arguments") = .ok (.str s) ∧
          json_loads s = .ok inp ∧
          part = .obj [("type", .str "tool_use"), ("id", i), ("name", n), ("input", inp)])
          tcs toolParts) := by
  have hsucc : ∀ resp, nonStreamEndpoint modelName gid data = .success resp →
      handle_non_stream modelName gid data = .ok resp := by
    intro resp hr
    unfold nonStreamEndpoint at hr
    cases hh : handle_non_stream modelName gid data with
    | ok r =>
      rw [hh] at hr
      cases hr
      rfl
    | error e => rw [hh] at hr; cases hr
  constructor
  · intro hbad
    cases hres : nonStreamEndpoint modelName gid data with
    | failure e => exact ⟨e, rfl⟩
    | success resp =>
      exfalso
      have hok := hsucc resp hres
      obtain ⟨c1, ch1, m1, cv, tr1, tcs1, tp, g1, g2, g3, g4, g5, g6, g7, g8⟩ :=
        handle_non_stream_ok_parts modelName gid data resp hok
      obtain rfl : choices = c1 := Except.ok.inj (h1.symm.trans g1)
      obtain rfl : choice = ch1 := Except.ok.inj (h2.symm.trans g2)
      obtain rfl : msg = m1 := Except.ok.inj (h3.symm.trans g3)
      obtain rfl : tcsRaw = tr1 := Except.ok.inj (h4.symm.trans g5)
      obtain rfl : tcs = tcs1 := Except.ok.inj (h5.symm.trans g6)
      have hforall := toolUseParts_forall2 tcs tp g7
      obtain ⟨tc, htc, s, hargs, e, hle⟩ := hbad
      obtain ⟨part, hpmem, i, n, s2, inp, hi2, hn2, ha2, hl2, hp2⟩ :=
        forall2_mem_left hforall htc
      have hss : Json.str s2 = Json.str s := Except.ok.inj (ha2.symm.trans hargs)
      cases hss
      exact Except.noConfusion (hl2.symm.trans hle)
  · intro resp hr
    have hok := hsucc resp hr
    obtain ⟨c1, ch1, m1, cv, tr1, tcs1, tp, g1, g2, g3, g4, g5, g6, g7, g8⟩ :=
      handle_non_stream_ok_parts modelName gid data resp hok
    obtain rfl : choices = c1 := Except.ok.inj (h1.symm.trans g1)
    obtain rfl : choice = ch1 := Except.ok.inj (h2.symm.trans g2)
    obtain rfl : msg = m1 := Except.ok.inj (h3.symm.trans g3)
    obtain rfl : tcsRaw = tr1 := Except.ok.inj (h4.symm.trans g5)
    obtain rfl : tcs = tcs1 := Except.ok.inj (h5.symm.trans g6)
    exact ⟨tp, (if Py.truthy cv then [Json.obj [("type", .str "text"), ("text", cv)]] else []),
      g7, g8, toolUseParts_forall2 tcs tp g7⟩

/-- A backend tool call whose `arguments` string is not valid JSON. -/
def badArgsTc : Json :=
  .obj [("id", .str "c1"),
        ("function", .obj [("name", .str "f"), ("arguments", .str "not json")])]

/-- The backend message wrapping `badArgsTc`. -/
def badArgsMsg : Json :=
  .obj [("content", .str "ok"), ("tool_calls", .arr [badArgsTc])]

/-- The backend choice wrapping `badArgsMsg`. -/
def badArgsChoice : Json := .obj [("message", badArgsMsg), ("finish_reason", .str "tool_calls")]

/-- A complete backend reply whose single tool call has malformed argument
JSON. -/
def badArgsData : Json :=
  .obj [("id", .str "chatcmpl-1"), ("choices", .arr [badArgsChoice]),
        ("usage", .obj [("prompt_tokens", .num 1), ("completion_tokens", .num 2)])]

/-- C9, witness: the theorem applied to `badArgsData`. -/
theorem C9_nonstream_tool_args_witness :
    ((∃ tc ∈ [badArgsTc], ∃ s, (do let f ← Py.getItem tc "function"
                                   Py.getItem f "arguments") = Except.ok (Json.str s) ∧
        ∃ e, json_loads s = .error e) →
      ∃ e, nonStreamEndpoint "m" "g" badArgsData = .failure e) ∧
    (∀ resp, nonStreamEndpoint "m" "g" badArgsData = .success resp →
      ∃ toolParts textParts,
        toolUseParts [badArgsTc] = .ok toolParts ∧
        resp.content = textParts ++ toolParts ∧
        List.Forall₂ (fun tc part => ∃ i n s inp,
          Py.getItem tc "id" = .ok i ∧
          (do let f ← Py.getItem tc "function"
              Py.getItem f "name") = .ok n ∧
          (do let f ← Py.getItem tc "function"
              Py.getItem f "arguments") = .ok (.str s) ∧
          json_loads s = .ok inp ∧
          part = .obj [("type", .str "tool_use"), ("id", i), ("name", n), ("input", inp)])
          [badArgsTc] toolParts) :=
  C9_nonstream_tool_args "m" "g" badArgsData (.arr [badArgsChoice]) badArgsChoice badArgsMsg
    (.arr [badArgsTc]) [badArgsTc] rfl rfl rfl rfl rfl

/-! ## Streaming translation (`stream_generator`, proxy.py lines 220–343) -/

/-- One backend stream line, classified as the loop on lines 254–267
classifies it: not a `data:` line (skipped), the `[DONE]` terminator (breaks
the loop), a data payload that fails to parse as JSON (logged and skipped),
or a successfully parsed chunk. -/
inductive Fragment where
  | nonData
  | done
  | malformed
  | chunk (j : Json)
deriving Repr, DecidableEq

/-- One source-protocol stream event with its varying payload fields
(`sse_pack` serializes these onto the wire; text events always carry
index 0, lines 280 and 287). -/
inductive Ev where
  | messageStart (msgId model : String)
  | ping
  | blockStartText
  | textDelta (text : Json)
  | blockStartTool (index id name : Json)
  | toolArgsDelta (index : Json) (partialJson : String)
  | blockStop (index : Json)
  | messageDelta (stopReason : String) (outputTokens : Json)
  | messageStop
deriving Repr, DecidableEq

namespace Ev

/-- The `index` field carried by a content-block event. -/
def index? : Ev → Option Json
  | .blockStartText => some (.num 0)
  | .textDelta _ => some (.num 0)
  | .blockStartTool i _ _ => some i
  | .toolArgsDelta i _ => some i
  | .blockStop i => some i
  | _ => none

/-- A `content_block_start` carrying a `tool_use` block. -/
def isToolStart : Ev → Bool
  | .blockStartTool _ _ _ => true
  | _ => false

/-- A `content_block_delta` carrying an `input_json_delta`. -/
def isToolDelta : Ev → Bool
  | .toolArgsDelta _ _ => true
  | _ => false

/-- A `content_block_stop`. -/
def isStopEv : Ev → Bool
  | .blockStop _ => true
  | _ => false

/-- A text-block event (`content_block_start` with a text block, or a
`text_delta`). -/
def isTextEv : Ev → Bool
  | .blockStartText => true
  | .textDelta _ => true
  | _ => false

/-- Any `content_block_start`. -/
def isStartEv : Ev → Bool
  | .blockStartText => true
  | .blockStartTool _ _ _ => true
  | _ => false

/-- A `message_delta` event. -/
def isMessageDeltaEv : Ev → Bool
  | .messageDelta _ _ => true
  | _ => false

/-- An event the chunk loop (lines 276–324) can emit. -/
def isLoopEv (e : Ev) : Bool := e.isToolStart || e.isToolDelta || e.isTextEv

end Ev

/-- A `ToolCallAccumulator` entry (line 296): call id, function name, and the
concatenated argument fragments. -/
structure ToolAcc where
  id : Json
  name : Json
  args : String
deriving Repr, DecidableEq

/-- The translator's per-response mutable state (lines 246–249):
`text_block_started`, the accumulator dict in insertion order, and the
last-seen usage and chunk. -/
structure StState where
  text_block_started : Bool
  tool_call_accumulators : List (Json × ToolAcc)
  usage : Json
  last_chunk : Json
deriving Repr, DecidableEq

/-- The state at line 249: flag down, no accumulators, `usage = {}`,
`last_chunk = {}`. -/
def initStState : StState := ⟨false, [], .obj [], .obj []⟩

/-- The accumulator keys, in insertion order. -/
def keysOf (st : StState) : List Json := st.tool_call_accumulators.map Prod.fst

/-- `tool_call_accumulators[idx]['args'] += arg_chunk` (line 316). -/
def appendArgs (st : StState) (idx : Json) (s : String) : StState :=
  { st with tool_call_accumulators := (st.tool_call_accumulators.map
      (fun kv => if kv.1 = idx then (kv.1, { kv.2 with args := kv.2.args ++ s }) else kv)) }

/-- `tool_call_delta.get('function', {}).get('arguments', '')` with the
truthiness test of line 315; a truthy non-string argument value raises at the
`+=` on line 316 before anything is yielded. -/
def argChunkOf (tcd : Json) : Except String (Option String) := do
  let f ← Py.getD tcd "function" (.obj [])
  let a ← Py.getD f "arguments" (.str "")
  if Py.truthy a then
    match a with
    | Json.str s => return some s
    | _ => Except.error "TypeError: can only concatenate str"
  else
    return none

/-- One `tool_call_delta` of the loop on lines 293–324: read the mandatory
`index`, create the accumulator and emit `content_block_start` on first
sight (seeding id and name with `''` defaults), then append and emit any
non-empty argument fragment. -/
def processToolCallDelta (st : StState) (tcd : Json) : List Ev × Except String StState :=
  match Py.getItem tcd "index" with
  | .error e => ([], .error e)
  | .ok idx =>
    match st.tool_call_accumulators.lookup idx with
    | some _ =>
      match argChunkOf tcd with
      | .error e => ([], .error e)
      | .ok none => ([], .ok st)
      | .ok (some s) => ([Ev.toolArgsDelta idx s], .ok (appendArgs st idx s))
    | none =>
      match Py.getD tcd "function" (.obj []) with
      | .error e => ([], .error e)
      | .ok func_info =>
        match Py.getD tcd "id" (.str "") with
        | .error e => ([], .error e)
        | .ok tid =>
          match Py.getD func_info "name" (.str "") with
          | .error e => ([], .error e)
          | .ok tname =>
            let st1 := { st with tool_call_accumulators :=
              st.tool_call_accumulators ++ [(idx, ⟨tid, tname, ""⟩)] }
            match argChunkOf tcd with
            | .error e => ([Ev.blockStartTool idx tid tname], .error e)
            | .ok none => ([Ev.blockStartTool idx tid tname], .ok st1)
            | .ok (some s) =>
              ([Ev.blockStartTool idx tid tname, Ev.toolArgsDelta idx s],
               .ok (appendArgs st1 idx s))

/-- The `for tool_call_delta in delta['tool_calls']` loop. -/
def processToolCallDeltas (st : StState) : List Json → List Ev × Except String StState
  | [] => ([], .ok st)
  | tcd :: rest =>
    match processToolCallDelta st tcd with
    | (evs, .error e) => (evs, .error e)
    | (evs, .ok st1) =>
      let (evs2, r) := processToolCallDeltas st1 rest
      (evs ++ evs2, r)

/-- One successfully parsed chunk (lines 264–324): record it as
`last_chunk`, take its usage if truthy, extract the first choice's delta
(`chunk.get('choices', [{}])[0].get('delta', {})`), then emit text events
and process tool-call deltas. -/
def processChunk (st : StState) (chunk : Json) : List Ev × Except String StState :=
  let st0 := { st with last_chunk := chunk }
  match Py.get chunk "usage" with
  | .error e => ([], .error e)
  | .ok u =>
    let st1 := if Py.truthy u then { st0 with usage := u } else st0
    match Py.getD chunk "choices" (.arr [.obj []]) with
    | .error e => ([], .error e)
    | .ok choicesVal =>
      match Py.item0 choicesVal with
      | .error e => ([], .error e)
      | .ok first =>
        match Py.getD first "delta" (.obj []) with
        | .error e => ([], .error e)
        | .ok delta =>
          if !Py.truthy delta then ([], .ok st1)
          else
            match Py.get delta "content" with
            | .error e => ([], .error e)
            | .ok contentVal =>
              let (textEvs, st2) :=
                if Py.truthy contentVal then
                  if st1.text_block_started then
                    ([Ev.textDelta contentVal], st1)
                  else
                    ([Ev.blockStartText, Ev.textDelta contentVal],
                     { st1 with text_block_started := true })
                else (([] : List Ev), st1)
              match Py.get delta "tool_calls" with
              | .error e => (textEvs, .error e)
              | .ok tcv =>
                if Py.truthy tcv then
                  match Py.iter tcv with
                  | .error e => (textEvs, .error e)
                  | .ok tcds =>
                    let (tevs, r) := processToolCallDeltas st2 tcds
                    (textEvs ++ tevs, r)
                else (textEvs, .ok st2)

/-- The line loop (lines 254–267): skip non-data and unparseable lines,
break on `[DONE]`, process parsed chunks.  An exception while processing a
chunk ends the run with the events emitted so far and the error. -/
def runFragments (st : StState) : List Fragment → List Ev × StState × Option String
  | [] => ([], st, none)
  | .nonData :: rest => runFragments st rest
  | .malformed :: rest => runFragments st rest
  | .done :: _ => ([], st, none)
  | .chunk j :: rest =>
    match processChunk st j with
    | (evs, .ok st1) =>
      let (evs2, st2, err) := runFragments st1 rest
      (evs ++ evs2, st2, err)
    | (evs, .error e) => (evs, st, some e)

/-- `last_chunk.get('choices', [{}])[0].get('finish_reason')` (line 326). -/
def finishReasonOf (lastChunk : Json) : Except String Json := do
  let cv ← Py.getD lastChunk "choices" (.arr [.obj []])
  let first ← Py.item0 cv
  Py.get first "finish_reason"

/-- The end-of-stream phase (lines 326–343): compute the stop reason from
the last chunk, close every open tool-call index in insertion order — else
the text block if it was opened — then emit `message_delta` (with
`usage.get('completion_tokens', 0)`) and `message_stop`.  A failure leaves
the events already emitted. -/
def finishEvents (st : StState) : List Ev × Option String :=
  match (do let fr ← finishReasonOf st.last_chunk
            map_stop_reason fr : Except String String) with
  | .error e => ([], some e)
  | .ok sr =>
    let stops :=
      if st.tool_call_accumulators.isEmpty then
        (if st.text_block_started then [Ev.blockStop (.num 0)] else [])
      else
        st.tool_call_accumulators.map (fun kv => Ev.blockStop kv.1)
    match Py.getD st.usage "completion_tokens" (.num 0) with
    | .error e => (stops, some e)
    | .ok outTok => (stops ++ [Ev.messageDelta sr outTok, Ev.messageStop], none)

/-- `stream_generator` (lines 220–343) over a classified fragment sequence:
the fixed `message_start`/`ping` prelude, the chunk loop, and — when the
loop ends without an exception — the end-of-stream phase.  The second
component is the exception that truncated the stream, if any. -/
def stream_generator (modelName msgId : String) (frags : List Fragment) :
    List Ev × Option String :=
  let pre := [Ev.messageStart msgId modelName, Ev.ping]
  match runFragments initStState frags with
  | (evs, _, some e) => (pre ++ evs, some e)
  | (evs, st, none) =>
    let (endEvs, err) := finishEvents st
    (pre ++ evs ++ endEvs, err)

/-! ### Stream counterexample inputs -/

/-- Text content followed by a tool-call fragment tagged index 0 — the index
the text block already uses. -/
def collisionFrags : List Fragment := [
  .chunk (.obj [("choices", .arr [.obj [("delta", .obj [("content", .str "hi")])]])]),
  .chunk (.obj [("choices", .arr [.obj [("delta", .obj [("tool_calls", .arr [
     .obj [("index", .num 0), ("id", .str "t0"),
           ("function", .obj [("name", .str "f")])]])])]])])]

/-- Tool calls introduced at index 2 first, then index 1. -/
def descendingFrags : List Fragment := [
  .chunk (.obj [("choices", .arr [.obj [("delta", .obj [("tool_calls", .arr [
     .obj [("index", .num 2), ("id", .str "b"),
           ("function", .obj [("name", .str "g")])]])])]])]),
  .chunk (.obj [("choices", .arr [.obj [("delta", .obj [("tool_calls", .arr [
     .obj [("index", .num 1), ("id", .str "a"),
           ("function", .obj [("name", .str "f")])]])])]])])]

/-- A chunk carrying `finish_reason: "tool_calls"` followed by a usage-only
chunk with no finish reason. -/
def erasedFinishFrags : List Fragment := [
  .chunk (.obj [("choices", .arr [.obj [("delta", .obj [("content", .str "x")]),
                                        ("finish_reason", .str "tool_calls")]])]),
  .chunk (.obj [("usage", .obj [("completion_tokens", .num 5)])]),
  .done]

/-- C2, counterexample: when the backend tags a tool call with index 0 after
text has streamed (`collisionFrags`), the output carries TWO
`content_block_start` events at index 0 — one for the text block, one for
the tool block — refuting "exactly one content_block_start for that index"
for tool-call index 0. -/
theorem C2_stream_ordering_counterexample :
    Ev.blockStartTool (.num 0) (.str "t0") (.str "f")
        ∈ (stream_generator "m" "g" collisionFrags).1 ∧
    (((stream_generator "m" "g" collisionFrags).1).filter
       (fun e => e.isStartEv && e.index? == some (.num 0))).length = 2 := by
  decide

/-- C4, counterexample: a backend fragment sequence whose tool-call fragment
is tagged index 0 makes the translator emit a `content_block_start` carrying
a `tool_use` block at index 0 (lines 294–312 use the backend index with no
guard), so index 0 is not reserved for the text block. -/
theorem C4_index_zero_counterexample :
    Ev.blockStartTool (.num 0) (.str "t0") (.str "f")
        ∈ (stream_generator "m" "g" collisionFrags).1 := by
  decide

/-- C3, counterexample: (i) stops are emitted in accumulator insertion order
(first-seen order), so `descendingFrags` closes index 2 before index 1 —
not ascending index order; (ii) on an empty stream neither branch fires and
no `content_block_stop` is emitted at all, refuting "exactly one of these
two branches fires for any stream". -/
theorem C3_stream_close_counterexample :
    (stream_generator "m" "g" descendingFrags).1.filter Ev.isStopEv
        = [Ev.blockStop (.num 2), Ev.blockStop (.num 1)] ∧
    [Ev.blockStop (Json.num 2), Ev.blockStop (Json.num 1)]
        ≠ [Ev.blockStop (Json.num 1), Ev.blockStop (Json.num 2)] ∧
    (stream_generator "m" "g" ([] : List Fragment)).1.filter Ev.isStopEv = [] := by
  decide

/-- C5, counterexample: on `erasedFinishFrags` the last non-absent finish
reason is `"tool_calls"`, whose mapping is `"tool_use"`; but line 326 reads
the finish reason of the LAST parsed chunk (the usage-only one, where it is
absent), so the emitted `message_delta` carries `"end_turn"`. -/
theorem C5_stop_reason_counterexample :
    (stream_generator "m" "g" erasedFinishFrags).1.filter Ev.isMessageDeltaEv
        = [Ev.messageDelta "end_turn" (.num 5)] ∧
    map_stop_reason (.str "tool_calls") = .ok "tool_use" ∧
    "end_turn" ≠ "tool_use" := by
  decide

/-! ### Stream projections -/

/-- The `tool_use`-typed events (`content_block_start` with a tool block, or
`input_json_delta`) carrying the given index. -/
def toolProj (evs : List Ev) (i : Json) : List Ev :=
  evs.filter (fun e => (e.isToolStart || e.isToolDelta) && e.index? == some i)

/-- The indices of the tool-block `content_block_start` events, in emission
(= first-seen) order. -/
def startIdxs (evs : List Ev) : List Json :=
  evs.filterMap (fun e => match e with | .blockStartTool j _ _ => some j | _ => none)

/-- All events carrying the given index. -/
def fullProj (evs : List Ev) (i : Json) : List Ev :=
  evs.filter (fun e => e.index? == some i)

/-- The `index` value of a tool-call delta fragment, when readable. -/
def tcdIndex (tcd : Json) : Option Json :=
  match tcd with
  | .obj ms => ms.lookup "index"
  | _ => none

/-- The first-choice delta of a chunk, when its extraction
(line 272) succeeds. -/
def deltaOf (chunk : Json) : Option Json :=
  match Py.getD chunk "choices" (.arr [.obj []]) with
  | .error _ => none
  | .ok cv =>
    match Py.item0 cv with
    | .error _ => none
    | .ok first =>
      match Py.getD first "delta" (.obj []) with
      | .error _ => none
      | .ok d => some d

/-- The indices of the tool-call deltas a chunk carries. -/
def chunkToolIndices (chunk : Json) : List Json :=
  match deltaOf chunk with
  | none => []
  | some delta =>
    if Py.truthy delta then
      match Py.get delta "tool_calls" with
      | .error _ => []
      | .ok tcv =>
        if Py.truthy tcv then
          match Py.iter tcv with
          | .error _ => []
          | .ok tcds => tcds.filterMap tcdIndex
        else []
    else []

/-- The indices of all tool-call deltas in a fragment sequence, up to the
terminator. -/
def fragsToolIndices : List Fragment → List Json
  | [] => []
  | .done :: _ => []
  | .chunk j :: rest => chunkToolIndices j ++ fragsToolIndices rest
  | .nonData :: rest => fragsToolIndices rest
  | .malformed :: rest => fragsToolIndices rest

/-- The last successfully parsed chunk of a fragment sequence (up to the
terminator), starting from `init` (the translator starts from `{}`). -/
def lastChunkOf (init : Json) : List Fragment → Json
  | [] => init
  | .done :: _ => init
  | .chunk j :: rest => lastChunkOf j rest
  | .nonData :: rest => lastChunkOf init rest
  | .malformed :: rest => lastChunkOf init rest

theorem keysOf_appendArgs (st : StState) (idx : Json) (s : String) :
    keysOf (appendArgs st idx s) = keysOf st := by
  simp only [keysOf, appendArgs, List.map_map]
  apply List.map_congr_left
  intro kv _
  by_cases h : kv.1 = idx <;> simp [h]

theorem getItem_index_tcdIndex {tcd idx : Json} (h : Py.getItem tcd "index" = .ok idx) :
    tcdIndex tcd = some idx := by
  cases tcd with
  | obj ms =>
    simp only [Py.getItem] at h
    cases hm : ms.lookup "index" with
    | none => rw [hm] at h; cases h
    | some v =>
      rw [hm] at h
      cases h
      simpa [tcdIndex] using hm
  | null => cases h
  | bool b => cases h
  | num n => cases h
  | str s => cases h
  | arr es => cases h

theorem lookup_some_mem_fst {l : List (Json × ToolAcc)} {k : Json} {v : ToolAcc}
    (h : l.lookup k = some v) : k ∈ l.map Prod.fst := by
  induction l with
  | nil => cases h
  | cons kv rest ih =>
    obtain ⟨a, b⟩ := kv
    simp only [List.lookup] at h
    by_cases hk : k = a
    · simp [hk]
    · have hb : (k == a) = false := by simpa using hk
      rw [hb] at h
      simp [ih h]

theorem lookup_none_not_mem_fst {l : List (Json × ToolAcc)} {k : Json}
    (h : l.lookup k = none) : ¬ k ∈ l.map Prod.fst := by
  induction l with
  | nil => simp
  | cons kv rest ih =>
    obtain ⟨a, b⟩ := kv
    simp only [List.lookup] at h
    by_cases hk : k = a
    · rw [hk] at h; simp at h
    · have hb : (k == a) = false := by simpa using hk
      rw [hb] at h
      simp [hk, ih h]

theorem ptcd_spec (st : StState) (tcd : Json) (evs : List Ev) (r : Except String StState)
    (h : processToolCallDelta st tcd = (evs, r)) :
    (∀ e ∈ evs, (e.isToolStart || e.isToolDelta) = true) ∧
    (∀ i, i ∈ startIdxs evs → tcdIndex tcd = some i ∧ ¬ i ∈ keysOf st) ∧
    (∀ i, ∀ e ∈ toolProj evs i, tcdIndex tcd = some i) ∧
    (∀ i, i ∈ keysOf st → ∀ e ∈ toolProj evs i, e.isToolDelta = true) ∧
    (∀ i, ¬ i ∈ keysOf st → toolProj evs i = [] ∨
      ∃ id nm ds, toolProj evs i = Ev.blockStartTool i id nm :: ds ∧
        ∀ d ∈ ds, d.isToolDelta = true) ∧
    (∀ st', r = .ok st' →
      keysOf st' = keysOf st ++ startIdxs evs ∧
      ((keysOf st).Nodup → (keysOf st').Nodup) ∧
      st'.text_block_started = st.text_block_started ∧
      st'.last_chunk = st.last_chunk ∧
      st'.usage = st.usage) := by
  unfold processToolCallDelta at h
  cases hidx : Py.getItem tcd "index" with
  | error e =>
    simp only [hidx] at h
    cases h
    refine ⟨by simp, by simp [startIdxs], by simp [toolProj], by simp [toolProj],
      fun i _ => Or.inl (by simp [toolProj]), fun st' hst' => by cases hst'⟩
  | ok idx =>
  simp only [hidx] at h
  have hti := getItem_index_tcdIndex hidx
  cases hlk : st.tool_call_accumulators.lookup idx with
  | some acc =>
    simp only [hlk] at h
    have hmem : idx ∈ keysOf st := lookup_some_mem_fst hlk
    cases hac : argChunkOf tcd with
    | error e =>
      simp only [hac] at h
      cases h
      refine ⟨by simp, by simp [startIdxs], by simp [toolProj], by simp [toolProj],
        fun i _ => Or.inl (by simp [toolProj]), fun st' hst' => by cases hst'⟩
    | ok aopt =>
      simp only [hac] at h
      cases aopt with
      | none =>
        cases h
        refine ⟨by simp, by simp [startIdxs], by simp [toolProj], by simp [toolProj],
          fun i _ => Or.inl (by simp [toolProj]), fun st' hst' => ?_⟩
        cases hst'
        simp [startIdxs]
      | some s =>
        cases h
        refine ⟨by simp [Ev.isToolDelta], by simp [startIdxs], ?_, ?_, ?_,
          fun st' hst' => ?_⟩
        · intro i e he
          simp only [toolProj, List.filter, Ev.isToolStart, Ev.isToolDelta, Ev.index?,
            Bool.false_or] at he
          by_cases hie : idx = i
          · exact hie ▸ hti
          · have : (some idx == some i) = false := by simpa using hie
            rw [this] at he
            simp at he
        · intro i _ e he
          simp only [toolProj, List.filter, Ev.isToolStart, Ev.isToolDelta, Ev.index?,
            Bool.false_or] at he
          by_cases hie : (some idx == some i) = true
          · rw [hie] at he
            simp at he
            simp [he, Ev.isToolDelta]
          · rw [Bool.not_eq_true] at hie
            rw [hie] at he
            simp at he
        · intro i hni
          left
          simp only [toolProj, List.filter, Ev.isToolStart, Ev.isToolDelta, Ev.index?,
            Bool.false_or]
          have hne : idx ≠ i := fun hh => hni (hh ▸ hmem)
          have : (some idx == some i) = false := by simpa using hne
          rw [this]
          rfl
        · cases hst'
          refine ⟨by simp [keysOf_appendArgs, startIdxs], by simp [keysOf_appendArgs, startIdxs],
            rfl, rfl, rfl⟩
  | none =>
    simp only [hlk] at h
    have hnmem : ¬ idx ∈ keysOf st := lookup_none_not_mem_fst hlk
    cases hfi : Py.getD tcd "function" (.obj []) with
    | error e =>
      simp only [hfi] at h
      cases h
      refine ⟨by simp, by simp [startIdxs], by simp [toolProj], by simp [toolProj],
        fun i _ => Or.inl (by simp [toolProj]), fun st' hst' => by cases hst'⟩
    | ok func_info =>
    simp only [hfi] at h
    cases hti2 : Py.getD tcd "id" (.str "") with
    | error e =>
      simp only [hti2] at h
      cases h
      refine ⟨by simp, by simp [startIdxs], by simp [toolProj], by simp [toolProj],
        fun i _ => Or.inl (by simp [toolProj]), fun st' hst' => by cases hst'⟩
    | ok tid =>
    simp only [hti2] at h
    cases htn : Py.getD func_info "name" (.str "") with
    | error e =>
      simp only [htn] at h
      cases h
      refine ⟨by simp, by simp [startIdxs], by simp [toolProj], by simp [toolProj],
        fun i _ => Or.inl (by simp [toolProj]), fun st' hst' => by cases hst'⟩
    | ok tname =>
    simp only [htn] at h
    cases hac : argChunkOf tcd with
    | error e =>
      simp only [hac] at h
      cases h
      refine ⟨by simp [Ev.isToolStart], ?_, ?_, ?_, ?_, fun st' hst' => by cases hst'⟩
      · intro i hi
        simp only [startIdxs, List.filterMap] at hi
        simp at hi
        exact ⟨hi ▸ hti, hi ▸ hnmem⟩
      · intro i e he
        simp only [toolProj, List.filter, Ev.isToolStart, Ev.index?, Bool.true_or] at he
        by_cases hie : (some idx == some i) = true
        · simp at hie
          exact hie ▸ hti
        · rw [Bool.not_eq_true] at hie
          rw [hie] at he
          simp at he
      · intro i hi e he
        exact absurd hi (by
          have hne : idx ≠ i ∨ idx = i := by tauto
          rcases hne with hne | rfl
          · exfalso
            simp only [toolProj, List.filter, Ev.isToolStart, Ev.index?, Bool.true_or] at he
            have : (some idx == some i) = false := by simpa using hne
            rw [this] at he
            simp at he
          · exact hnmem)
      · intro i hni
        by_cases hie : idx = i
        · subst hie
          right
          refine ⟨tid, tname, [], ?_, by simp⟩
          simp [toolProj, List.filter, Ev.isToolStart, Ev.index?]
        · left
          simp only [toolProj, List.filter, Ev.isToolStart, Ev.index?, Bool.true_or]
          have : (some idx == some i) = false := by simpa using hie
          rw [this]
          rfl
    | ok aopt =>
      simp only [hac] at h
      cases aopt with
      | none =>
        cases h
        refine ⟨by simp [Ev.isToolStart], ?_, ?_, ?_, ?_, fun st' hst' => ?_⟩
        · intro i hi
          simp only [startIdxs, List.filterMap] at hi
          simp at hi
          exact ⟨hi ▸ hti, hi ▸ hnmem⟩
        · intro i e he
          simp only [toolProj, List.filter, Ev.isToolStart, Ev.index?, Bool.true_or] at he
          by_cases hie : (some idx == some i) = true
          · simp at hie
            exact hie ▸ hti
          · rw [Bool.not_eq_true] at hie
            rw [hie] at he
            simp at he
        · intro i hi e he
          exfalso
          by_cases hie : idx = i
          · exact (hie ▸ hnmem) hi
          · simp only [toolProj, List.filter, Ev.isToolStart, Ev.index?, Bool.true_or] at he
            have : (some idx == some i) = false := by simpa using hie
            rw [this] at he
            simp at he
        · intro i hni
          by_cases hie : idx = i
          · subst hie
            right
            refine ⟨tid, tname, [], ?_, by simp⟩
            simp [toolProj, List.filter, Ev.isToolStart, Ev.index?]
          · left
            simp only [toolProj, List.filter, Ev.isToolStart, Ev.index?, Bool.true_or]
            have : (some idx == some i) = false := by simpa using hie
            rw [this]
            rfl
        · cases hst'
          refine ⟨by simp [keysOf, startIdxs], ?_, rfl, rfl, rfl⟩
          intro hnd
          simp only [keysOf, List.map_append]
          simp [List.nodup_append, hnd]
          exact ⟨hnd, fun x hx => hnmem (List.mem_map_of_mem Prod.fst hx)⟩
      | some s =>
        cases h
        refine ⟨by simp [Ev.isToolStart, Ev.isToolDelta], ?_, ?_, ?_, ?_, fun st' hst' => ?_⟩
        · intro i hi
          simp only [startIdxs, List.filterMap] at hi
          simp at hi
          exact ⟨hi ▸ hti, hi ▸ hnmem⟩
        · intro i e he
          simp only [toolProj, List.filter, Ev.isToolStart, Ev.isToolDelta, Ev.index?,
            Bool.true_or, Bool.false_or] at he
          by_cases hie : (some idx == some i) = true
          · simp at hie
            exact hie ▸ hti
          · rw [Bool.not_eq_true] at hie
            rw [hie] at he
            simp at he
        · intro i hi e he
          exfalso
          by_cases hie : idx = i
          · exact (hie ▸ hnmem) hi
          · simp only [toolProj, List.filter, Ev.isToolStart, Ev.isToolDelta, Ev.index?,
              Bool.true_or, Bool.false_or] at he
            have : (some idx == some i) = false := by simpa using hie
            rw [this] at he
            simp at he
        · intro i hni
          by_cases hie : idx = i
          · subst hie
            right
            refine ⟨tid, tname, [Ev.toolArgsDelta idx s], ?_, by simp [Ev.isToolDelta]⟩
            simp [toolProj, List.filter, Ev.isToolStart, Ev.isToolDelta, Ev.index?]
          · left
            simp only [toolProj, List.filter, Ev.isToolStart, Ev.isToolDelta, Ev.index?,
              Bool.true_or, Bool.false_or]
            have : (some idx == some i) = false := by simpa using hie
            rw [this]
            rfl
        · cases hst'
          have hke : keysOf (appendArgs { st with tool_call_accumulators :=
              st.tool_call_accumulators ++ [(idx, (⟨tid, tname, ""⟩ : ToolAcc))] } idx s) =
              keysOf st ++ [idx] := by
            rw [keysOf_appendArgs]
            simp [keysOf]
          refine ⟨?_, ?_, rfl, rfl, rfl⟩
          · rw [hke]
            simp [startIdxs]
          · intro hnd
            rw [hke]
            simp [List.nodup_append, hnd]
            exact hnmem

theorem toolProj_append (a b : List Ev) (i : Json) :
    toolProj (a ++ b) i = toolProj a i ++ toolProj b i := by
  simp [toolProj, List.filter_append]

theorem startIdxs_append (a b : List Ev) :
    startIdxs (a ++ b) = startIdxs a ++ startIdxs b := by
  simp [startIdxs, List.filterMap_append]

theorem mem_startIdxs_iff (evs : List Ev) (i : Json) :
    i ∈ startIdxs evs ↔ ∃ id nm, Ev.blockStartTool i id nm ∈ evs := by
  simp only [startIdxs, List.mem_filterMap]
  constructor
  · rintro ⟨e, he, hm⟩
    cases e <;> simp at hm
    rename_i j id nm
    exact ⟨id, nm, by rw [← hm]; exact he⟩
  · rintro ⟨id, nm, hmem⟩
    exact ⟨Ev.blockStartTool i id nm, hmem, rfl⟩

theorem startIdx_toolProj_ne (evs : List Ev) (i : Json) (h : i ∈ startIdxs evs) :
    toolProj evs i ≠ [] := by
  obtain ⟨id, nm, hmem⟩ := (mem_startIdxs_iff evs i).mp h
  have hin : Ev.blockStartTool i id nm ∈ toolProj evs i :=
    List.mem_filter.mpr ⟨hmem, by simp [Ev.isToolStart, Ev.index?]⟩
  intro he
  rw [he] at hin
  cases hin

theorem toolProj_start_mem_startIdxs (evs : List Ev) (i : Json) {id nm : Json} {ds : List Ev}
    (h : toolProj evs i = Ev.blockStartTool i id nm :: ds) : i ∈ startIdxs evs := by
  have hin : Ev.blockStartTool i id nm ∈ toolProj evs i := by rw [h]; simp
  exact (mem_startIdxs_iff evs i).mpr ⟨id, nm, List.mem_of_mem_filter hin⟩

theorem ptcds_spec (tcds : List Json) (st : StState) (evs : List Ev)
    (r : Except String StState) (h : processToolCallDeltas st tcds = (evs, r)) :
    (∀ e ∈ evs, (e.isToolStart || e.isToolDelta) = true) ∧
    (∀ i, i ∈ startIdxs evs → i ∈ tcds.filterMap tcdIndex) ∧
    (∀ i, ∀ e ∈ toolProj evs i, i ∈ tcds.filterMap tcdIndex) ∧
    (∀ i, i ∈ keysOf st → ∀ e ∈ toolProj evs i, e.isToolDelta = true) ∧
    (∀ i, ¬ i ∈ keysOf st → toolProj evs i = [] ∨
      ∃ id nm ds, toolProj evs i = Ev.blockStartTool i id nm :: ds ∧
        ∀ d ∈ ds, d.isToolDelta = true) ∧
    (∀ st', r = .ok st' →
      keysOf st' = keysOf st ++ startIdxs evs ∧
      ((keysOf st).Nodup → (keysOf st').Nodup) ∧
      st'.text_block_started = st.text_block_started ∧
      st'.last_chunk = st.last_chunk ∧
      st'.usage = st.usage) := by
  induction tcds generalizing st evs r with
  | nil =>
    simp only [processToolCallDeltas] at h
    cases h
    refine ⟨by simp, by simp [startIdxs], by simp [toolProj], by simp [toolProj],
      fun i _ => Or.inl (by simp [toolProj]), fun st' hst' => ?_⟩
    cases hst'
    simp [startIdxs]
  | cons tcd rest ih =>
    simp only [processToolCallDeltas] at h
    cases h1 : processToolCallDelta st tcd with
    | mk evs1 r1 =>
    simp only [h1] at h
    obtain ⟨p1, p2, p3, p4, p5, p6⟩ := ptcd_spec st tcd evs1 r1 h1
    cases r1 with
    | error e =>
      cases h
      refine ⟨p1, ?_, ?_, p4, p5, fun st' hst' => by cases hst'⟩
      · intro i hi
        simp only [List.filterMap_cons]
        rcases p2 i hi with ⟨hti, _⟩
        simp [hti]
      · intro i e2 he2
        have hti := p3 i e2 he2
        simp only [List.filterMap_cons]
        simp [hti]
    | ok st1 =>
      obtain ⟨hk1, hnd1, htx1, hlc1, hus1⟩ := p6 st1 rfl
      cases h2 : processToolCallDeltas st1 rest with
      | mk evs2 r2 =>
      simp only [h2] at h
      cases h
      obtain ⟨q1, q2, q3, q4, q5, q6⟩ := ih st1 _ _ h2
      have hsub : keysOf st ⊆ keysOf st1 := by rw [hk1]; exact fun x hx => by simp [hx]
      refine ⟨?_, ?_, ?_, ?_, ?_, ?_⟩
      · intro e he
        rcases List.mem_append.mp he with he | he
        · exact p1 e he
        · exact q1 e he
      · intro i hi
        rw [startIdxs_append] at hi
        simp only [List.filterMap_cons]
        rcases List.mem_append.mp hi with hi | hi
        · rcases p2 i hi with ⟨hti, _⟩
          simp [hti]
        · have := q2 i hi
          cases htc : tcdIndex tcd <;> simp [htc, this]
      · intro i e2 he2
        rw [toolProj_append] at he2
        simp only [List.filterMap_cons]
        rcases List.mem_append.mp he2 with he2 | he2
        · have hti := p3 i e2 he2
          simp [hti]
        · have := q3 i e2 he2
          cases htc : tcdIndex tcd <;> simp [htc, this]
      · intro i hi e2 he2
        rw [toolProj_append] at he2
        rcases List.mem_append.mp he2 with he2 | he2
        · exact p4 i hi e2 he2
        · exact q4 i (hsub hi) e2 he2
      · intro i hni
        rw [toolProj_append]
        rcases p5 i hni with hp | ⟨id, nm, ds, hp, hds⟩
        · rw [hp]
          have hni1 : ¬ i ∈ keysOf st1 := by
            rw [hk1]
            intro hmm
            rcases List.mem_append.mp hmm with hmm | hmm
            · exact hni hmm
            · exact startIdx_toolProj_ne evs1 i hmm hp
          rcases q5 i hni1 with hq | ⟨id, nm, ds, hq, hds⟩
          · rw [hq]
            exact Or.inl rfl
          · rw [hq]
            exact Or.inr ⟨id, nm, ds, rfl, hds⟩
        · rw [hp]
          have hi1 : i ∈ keysOf st1 := by
            rw [hk1]
            exact List.mem_append.mpr (Or.inr (toolProj_start_mem_startIdxs evs1 i hp))
          right
          refine ⟨id, nm, ds ++ toolProj evs2 i, by simp, ?_⟩
          intro d hd
          rcases List.mem_append.mp hd with hd | hd
          · exact hds d hd
          · exact q4 i hi1 d hd
      · intro st' hst'
        obtain ⟨hk2, hnd2, htx2, hlc2, hus2⟩ := q6 st' hst'
        refine ⟨?_, ?_, ?_, ?_, ?_⟩
        · rw [hk2, hk1, startIdxs_append]
          simp
        · intro hnd
          exact hnd2 (hnd1 hnd)
        · rw [htx2, htx1]
        · rw [hlc2, hlc1]
        · rw [hus2, hus1]

theorem pchunk_spec (st : StState) (chunk : Json) (evs : List Ev) (r : Except String StState)
    (h : processChunk st chunk = (evs, r)) :
    (∀ e ∈ evs, e.isLoopEv = true) ∧
    (∀ i, i ∈ startIdxs evs → i ∈ chunkToolIndices chunk) ∧
    (∀ i, ∀ e ∈ toolProj evs i, i ∈ chunkToolIndices chunk) ∧
    (∀ i, i ∈ keysOf st → ∀ e ∈ toolProj evs i, e.isToolDelta = true) ∧
    (∀ i, ¬ i ∈ keysOf st → toolProj evs i = [] ∨
      ∃ id nm ds, toolProj evs i = Ev.blockStartTool i id nm :: ds ∧
        ∀ d ∈ ds, d.isToolDelta = true) ∧
    (∀ st', r = .ok st' →
      keysOf st' = keysOf st ++ startIdxs evs ∧
      ((keysOf st).Nodup → (keysOf st').Nodup) ∧
      st'.text_block_started = (st.text_block_started || decide (Ev.blockStartText ∈ evs)) ∧
      st'.last_chunk = chunk) := by
  unfold processChunk at h
  cases hu : Py.get chunk "usage" with
  | error e =>
    simp only [hu] at h
    cases h
    refine ⟨by simp, by simp [startIdxs], by simp [toolProj], by simp [toolProj],
      fun i _ => Or.inl (by simp [toolProj]), fun st' hst' => by cases hst'⟩
  | ok u =>
  simp only [hu] at h
  cases hcv : Py.getD chunk "choices" (.arr [.obj []]) with
  | error e =>
    simp only [hcv] at h
    cases h
    refine ⟨by simp, by simp [startIdxs], by simp [toolProj], by simp [toolProj],
      fun i _ => Or.inl (by simp [toolProj]), fun st' hst' => by cases hst'⟩
  | ok choicesVal =>
  simp only [hcv] at h
  cases hfirst : Py.item0 choicesVal with
  | error e =>
    simp only [hfirst] at h
    cases h
    refine ⟨by simp, by simp [startIdxs], by simp [toolProj], by simp [toolProj],
      fun i _ => Or.inl (by simp [toolProj]), fun st' hst' => by cases hst'⟩
  | ok first =>
  simp only [hfirst] at h
  cases hdelta : Py.getD first "delta" (.obj []) with
  | error e =>
    simp only [hdelta] at h
    cases h
    refine ⟨by simp, by simp [startIdxs], by simp [toolProj], by simp [toolProj],
      fun i _ => Or.inl (by simp [toolProj]), fun st' hst' => by cases hst'⟩
  | ok delta =>
  simp only [hdelta] at h
  have hst1keys : keysOf (if Py.truthy u then
      { { st with last_chunk := chunk } with usage := u } else { st with last_chunk := chunk })
      = keysOf st := by split <;> rfl
  have hst1text : (if Py.truthy u then
      { { st with last_chunk := chunk } with usage := u }
      else { st with last_chunk := chunk }).text_block_started = st.text_block_started := by
    split <;> rfl
  have hst1last : (if Py.truthy u then
      { { st with last_chunk := chunk } with usage := u }
      else { st with last_chunk := chunk }).last_chunk = chunk := by
    split <;> rfl
  set st1 := (if Py.truthy u then
      { { st with last_chunk := chunk } with usage := u }
      else { st with last_chunk := chunk }) with hst1def
  by_cases hdt : Py.truthy delta = true
  case neg =>
    have : (!Py.truthy delta) = true := by simp [hdt]
    rw [if_pos this] at h
    cases h
    refine ⟨by simp, by simp [startIdxs], by simp [toolProj], by simp [toolProj],
      fun i _ => Or.inl (by simp [toolProj]), fun st' hst' => ?_⟩
    cases hst'
    refine ⟨by simp [startIdxs, hst1keys], fun hnd => by simpa [hst1keys] using hnd, ?_,
      hst1last⟩
    simp [hst1text]
  case pos =>
  have : (!Py.truthy delta) = false := by simp [hdt]
  rw [this, if_neg (by simp)] at h
  cases hcnt : Py.get delta "content" with
  | error e =>
    simp only [hcnt] at h
    cases h
    refine ⟨by simp, by simp [startIdxs], by simp [toolProj], by simp [toolProj],
      fun i _ => Or.inl (by simp [toolProj]), fun st' hst' => by cases hst'⟩
  | ok contentVal =>
  simp only [hcnt] at h
  have htext : ∀ e ∈ (if Py.truthy contentVal then
        (if st1.text_block_started then ([Ev.textDelta contentVal], st1)
         else ([Ev.blockStartText, Ev.textDelta contentVal],
               { st1 with text_block_started := true }))
      else (([] : List Ev), st1)).1, e.isTextEv = true := by
    split
    · split <;> simp [Ev.isTextEv]
    · simp
  have hst2keys : keysOf (if Py.truthy contentVal then
        (if st1.text_block_started then ([Ev.textDelta contentVal], st1)
         else ([Ev.blockStartText, Ev.textDelta contentVal],
               { st1 with text_block_started := true }))
      else (([] : List Ev), st1)).2 = keysOf st := by
    split
    · split
      · exact hst1keys
      · exact hst1keys
    · exact hst1keys
  have hst2last : (if Py.truthy contentVal then
        (if st1.text_block_started then ([Ev.textDelta contentVal], st1)
         else ([Ev.blockStartText, Ev.textDelta contentVal],
               { st1 with text_block_started := true }))
      else (([] : List Ev), st1)).2.last_chunk = chunk := by
    split
    · split
      · exact hst1last
      · exact hst1last
    · exact hst1last
  have hst2text : (if Py.truthy contentVal then
        (if st1.text_block_started then ([Ev.textDelta contentVal], st1)
         else ([Ev.blockStartText, Ev.textDelta contentVal],
               { st1 with text_block_started := true }))
      else (([] : List Ev), st1)).2.text_block_started
      = (st.text_block_started || decide (Ev.blockStartText ∈ (if Py.truthy contentVal then
        (if st1.text_block_started then ([Ev.textDelta contentVal], st1)
         else ([Ev.blockStartText, Ev.textDelta contentVal],
               { st1 with text_block_started := true }))
      else (([] : List Ev), st1)).1)) := by
    split
    · rcases hfl : st1.text_block_started with hf | ht
      · rw [if_neg (by simp [hfl])]
        simp [← hst1text, hfl]
      · rw [if_pos (by simp [hfl])]
        simp [← hst1text, hfl, Ev.isTextEv]
    · simp [← hst1text]
  set tp := (if Py.truthy contentVal then
        (if st1.text_block_started then ([Ev.textDelta contentVal], st1)
         else ([Ev.blockStartText, Ev.textDelta contentVal],
               { st1 with text_block_started := true }))
      else (([] : List Ev), st1)) with htpdef
  have htprojtp : ∀ i, toolProj tp.1 i = [] := by
    intro i
    rw [List.eq_nil_iff_forall_not_mem]
    intro e he
    have h1 := List.mem_filter.mp he
    have h2 := htext e h1.1
    cases e <;> simp [Ev.isTextEv] at h2 <;> simp [Ev.isToolStart, Ev.isToolDelta] at h1
  have hstarttp : startIdxs tp.1 = [] := by
    rw [List.eq_nil_iff_forall_not_mem]
    intro i hi
    obtain ⟨id, nm, hmem⟩ := (mem_startIdxs_iff tp.1 i).mp hi
    have := htext _ hmem
    simp [Ev.isTextEv] at this
  cases htc : Py.get delta "tool_calls" with
  | error e =>
    simp only [htc] at h
    cases h
    refine ⟨fun e he => by simp [Ev.isLoopEv, htext e he], ?_, ?_, ?_, ?_,
      fun st' hst' => by cases hst'⟩
    · intro i hi
      rw [hstarttp] at hi
      cases hi
    · intro i e2 he2
      rw [htprojtp] at he2
      cases he2
    · intro i _ e2 he2
      rw [htprojtp] at he2
      cases he2
    · intro i _
      exact Or.inl (htprojtp i)
  | ok tcv =>
  simp only [htc] at h
  by_cases htv : Py.truthy tcv = true
  case neg =>
    rw [if_neg htv] at h
    cases h
    refine ⟨fun e he => by simp [Ev.isLoopEv, htext e he], ?_, ?_, ?_, ?_,
      fun st' hst' => ?_⟩
    · intro i hi
      rw [hstarttp] at hi
      cases hi
    · intro i e2 he2
      rw [htprojtp] at he2
      cases he2
    · intro i _ e2 he2
      rw [htprojtp] at he2
      cases he2
    · intro i _
      exact Or.inl (htprojtp i)
    · cases hst'
      exact ⟨by simp [hstarttp, hst2keys], fun hnd => by simpa [hst2keys] using hnd,
        hst2text, hst2last⟩
  case pos =>
  rw [if_pos htv] at h
  cases hit : Py.iter tcv with
  | error e =>
    simp only [hit] at h
    cases h
    refine ⟨fun e he => by simp [Ev.isLoopEv, htext e he], ?_, ?_, ?_, ?_,
      fun st' hst' => by cases hst'⟩
    · intro i hi
      rw [hstarttp] at hi
      cases hi
    · intro i e2 he2
      rw [htprojtp] at he2
      cases he2
    · intro i _ e2 he2
      rw [htprojtp] at he2
      cases he2
    · intro i _
      exact Or.inl (htprojtp i)
  | ok tcds =>
  simp only [hit] at h
  have hcti : chunkToolIndices chunk = tcds.filterMap tcdIndex := by
    simp [chunkToolIndices, deltaOf, hcv, hfirst, hdelta, hdt, htc, htv, hit]
  cases hpt : processToolCallDeltas tp.2 tcds with
  | mk tevs r2 =>
  simp only [hpt] at h
  cases h
  obtain ⟨q1, q2, q3, q4, q5, q6⟩ := ptcds_spec tcds tp.2 _ _ hpt
  refine ⟨?_, ?_, ?_, ?_, ?_, ?_⟩
  · intro e he
    rcases List.mem_append.mp he with he | he
    · simp [Ev.isLoopEv, htext e he]
    · have := q1 e he
      simp [Ev.isLoopEv] at this ⊢
      tauto
  · intro i hi
    rw [startIdxs_append, hstarttp] at hi
    simp at hi
    rw [hcti]
    exact q2 i hi
  · intro i e2 he2
    rw [toolProj_append, htprojtp] at he2
    simp at he2
    rw [hcti]
    exact q3 i e2 he2
  · intro i hi e2 he2
    rw [toolProj_append, htprojtp] at he2
    simp at he2
    exact q4 i (by rw [hst2keys]; exact hi) e2 he2
  · intro i hni
    rw [toolProj_append, htprojtp]
    simp only [List.nil_append]
    exact q5 i (by rw [hst2keys]; exact hni)
  · intro st' hst'
    obtain ⟨hk2, hnd2, htx2, hlc2, hus2⟩ := q6 st' hst'
    refine ⟨?_, ?_, ?_, ?_⟩
    · rw [hk2, hst2keys, startIdxs_append, hstarttp]
      simp
    · intro hnd
      exact hnd2 (by rw [hst2keys]; exact hnd)
    · rw [htx2, hst2text]
      congr 1
      apply decide_eq_decide.mpr
      have hnt : Ev.blockStartText ∉ tevs := by
        intro hmm
        have := q1 _ hmm
        simp [Ev.isToolStart, Ev.isToolDelta] at this
      constructor
      · intro hmem
        exact List.mem_append.mpr (Or.inl hmem)
      · intro hmem
        rcases List.mem_append.mp hmem with hmem | hmem
        · exact hmem
        · exact absurd hmem hnt
    · rw [hlc2, hst2last]

theorem runFragments_spec (frags : List Fragment) (st : StState) (evs : List Ev)
    (st' : StState) (err : Option String)
    (h : runFragments st frags = (evs, st', err)) :
    (∀ e ∈ evs, e.isLoopEv = true) ∧
    (∀ i, i ∈ startIdxs evs → i ∈ fragsToolIndices frags) ∧
    (∀ i, ∀ e ∈ toolProj evs i, i ∈ fragsToolIndices frags) ∧
    (∀ i, i ∈ keysOf st → ∀ e ∈ toolProj evs i, e.isToolDelta = true) ∧
    (∀ i, ¬ i ∈ keysOf st → toolProj evs i = [] ∨
      ∃ id nm ds, toolProj evs i = Ev.blockStartTool i id nm :: ds ∧
        ∀ d ∈ ds, d.isToolDelta = true) ∧
    (err = none →
      keysOf st' = keysOf st ++ startIdxs evs ∧
      ((keysOf st).Nodup → (keysOf st').Nodup) ∧
      st'.text_block_started = (st.text_block_started || decide (Ev.blockStartText ∈ evs)) ∧
      st'.last_chunk = lastChunkOf st.last_chunk frags) := by
  induction frags generalizing st evs st' err with
  | nil =>
    simp only [runFragments] at h
    cases h
    refine ⟨by simp, by simp [startIdxs], by simp [toolProj], by simp [toolProj],
      fun i _ => Or.inl (by simp [toolProj]), fun _ => ?_⟩
    simp [startIdxs, lastChunkOf]
  | cons f rest ih =>
    cases f with
    | nonData =>
      simp only [runFragments] at h
      obtain ⟨a1, a2, a3, a4, a5, a6⟩ := ih st evs st' err h
      exact ⟨a1, a2, a3, a4, a5, fun he => by
        obtain ⟨b1, b2, b3, b4⟩ := a6 he
        exact ⟨b1, b2, b3, by rw [b4]; rfl⟩⟩
    | malformed =>
      simp only [runFragments] at h
      obtain ⟨a1, a2, a3, a4, a5, a6⟩ := ih st evs st' err h
      exact ⟨a1, a2, a3, a4, a5, fun he => by
        obtain ⟨b1, b2, b3, b4⟩ := a6 he
        exact ⟨b1, b2, b3, by rw [b4]; rfl⟩⟩
    | done =>
      simp only [runFragments] at h
      cases h
      refine ⟨by simp, by simp [startIdxs], by simp [toolProj], by simp [toolProj],
        fun i _ => Or.inl (by simp [toolProj]), fun _ => ?_⟩
      simp [startIdxs, lastChunkOf]
    | chunk j =>
      simp only [runFragments] at h
      cases h1 : processChunk st j with
      | mk evs1 r1 =>
      simp only [h1] at h
      obtain ⟨p1, p2, p3, p4, p5, p6⟩ := pchunk_spec st j evs1 r1 h1
      cases r1 with
      | error e =>
        cases h
        refine ⟨p1, ?_, ?_, p4, p5, fun he => by cases he⟩
        · intro i hi
          simp only [fragsToolIndices]
          exact List.mem_append.mpr (Or.inl (p2 i hi))
        · intro i e2 he2
          simp only [fragsToolIndices]
          exact List.mem_append.mpr (Or.inl (p3 i e2 he2))
      | ok st1 =>
        obtain ⟨hk1, hnd1, htx1, hlc1⟩ := p6 st1 rfl
        cases h2 : runFragments st1 rest with
        | mk evs2 pr =>
        obtain ⟨st2, err2⟩ := pr
        simp only [h2] at h
        cases h
        obtain ⟨q1, q2, q3, q4, q5, q6⟩ := ih st1 _ _ _ h2
        have hsub : keysOf st ⊆ keysOf st1 := by rw [hk1]; exact fun x hx => by simp [hx]
        refine ⟨?_, ?_, ?_, ?_, ?_, ?_⟩
        · intro e he
          rcases List.mem_append.mp he with he | he
          · exact p1 e he
          · exact q1 e he
        · intro i hi
          rw [startIdxs_append] at hi
          simp only [fragsToolIndices]
          rcases List.mem_append.mp hi with hi | hi
          · exact List.mem_append.mpr (Or.inl (p2 i hi))
          · exact List.mem_append.mpr (Or.inr (q2 i hi))
        · intro i e2 he2
          rw [toolProj_append] at he2
          simp only [fragsToolIndices]
          rcases List.mem_append.mp he2 with he2 | he2
          · exact List.mem_append.mpr (Or.inl (p3 i e2 he2))
          · exact List.mem_append.mpr (Or.inr (q3 i e2 he2))
        · intro i hi e2 he2
          rw [toolProj_append] at he2
          rcases List.mem_append.mp he2 with he2 | he2
          · exact p4 i hi e2 he2
          · exact q4 i (hsub hi) e2 he2
        · intro i hni
          rw [toolProj_append]
          rcases p5 i hni with hp | ⟨id, nm, ds, hp, hds⟩
          · rw [hp]
            have hni1 : ¬ i ∈ keysOf st1 := by
              rw [hk1]
              intro hmm
              rcases List.mem_append.mp hmm with hmm | hmm
              · exact hni hmm
              · exact startIdx_toolProj_ne evs1 i hmm hp
            rcases q5 i hni1 with hq | ⟨id, nm, ds, hq, hds⟩
            · rw [hq]
              exact Or.inl rfl
            · rw [hq]
              exact Or.inr ⟨id, nm, ds, rfl, hds⟩
          · rw [hp]
            have hi1 : i ∈ keysOf st1 := by
              rw [hk1]
              exact List.mem_append.mpr (Or.inr (toolProj_start_mem_startIdxs evs1 i hp))
            right
            refine ⟨id, nm, ds ++ toolProj evs2 i, by simp, ?_⟩
            intro d hd
            rcases List.mem_append.mp hd with hd | hd
            · exact hds d hd
            · exact q4 i hi1 d hd
        · intro he
          obtain ⟨b1, b2, b3, b4⟩ := q6 he
          refine ⟨?_, ?_, ?_, ?_⟩
          · rw [b1, hk1, startIdxs_append]
            simp
          · intro hnd
            exact b2 (hnd1 hnd)
          · rw [b3, htx1, Bool.or_assoc]
            congr 1
            by_cases hm1 : Ev.blockStartText ∈ evs1 <;>
              by_cases hm2 : Ev.blockStartText ∈ evs2 <;>
              simp [hm1, hm2]
          · rw [b4, hlc1]
            rfl

theorem stream_generator_clean (modelName msgId : String) (frags : List Fragment)
    (evs : List Ev) (h : stream_generator modelName msgId frags = (evs, none)) :
    ∃ loopEvs st sr outTok,
      runFragments initStState frags = (loopEvs, st, none) ∧
      (do let fr ← finishReasonOf st.last_chunk
          map_stop_reason fr : Except String String) = .ok sr ∧
      Py.getD st.usage "completion_tokens" (.num 0) = .ok outTok ∧
      evs = [Ev.messageStart msgId modelName, Ev.ping] ++ loopEvs ++
        ((if st.tool_call_accumulators.isEmpty then
            (if st.text_block_started then [Ev.blockStop (.num 0)] else [])
          else st.tool_call_accumulators.map (fun kv => Ev.blockStop kv.1))
         ++ [Ev.messageDelta sr outTok, Ev.messageStop]) := by
  unfold stream_generator at h
  cases hrun : runFragments initStState frags with
  | mk loopEvs pr =>
  obtain ⟨st, err⟩ := pr
  simp only [hrun] at h
  cases err with
  | some e => simp at h
  | none =>
  simp only [finishEvents] at h
  cases hsr : (do let fr ← finishReasonOf st.last_chunk
                  map_stop_reason fr : Except String String) with
  | error e => simp [hsr] at h
  | ok sr =>
  simp only [hsr] at h
  cases hot : Py.getD st.usage "completion_tokens" (.num 0) with
  | error e => simp [hot] at h
  | ok outTok =>
  simp only [hot] at h
  simp only [Prod.mk.injEq] at h
  exact ⟨loopEvs, st, sr, outTok, rfl, hsr, hot, by rw [← h.1]⟩

theorem startIdxs_eq_nil {l : List Ev} (h : ∀ e ∈ l, e.isToolStart = false) :
    startIdxs l = [] := by
  induction l with
  | nil => rfl
  | cons e es ih =>
    have he := h e (by simp)
    have hrest := ih (fun x hx => h x (by simp [hx]))
    cases e with
    | messageStart a b => simpa [startIdxs, List.filterMap_cons] using hrest
    | ping => simpa [startIdxs, List.filterMap_cons] using hrest
    | blockStartText => simpa [startIdxs, List.filterMap_cons] using hrest
    | textDelta t => simpa [startIdxs, List.filterMap_cons] using hrest
    | blockStartTool j id nm => simp [Ev.isToolStart] at he
    | toolArgsDelta j p => simpa [startIdxs, List.filterMap_cons] using hrest
    | blockStop j => simpa [startIdxs, List.filterMap_cons] using hrest
    | messageDelta a b => simpa [startIdxs, List.filterMap_cons] using hrest
    | messageStop => simpa [startIdxs, List.filterMap_cons] using hrest

theorem filter_beq_of_nodup (l : List Json) (i : Json) (hnd : l.Nodup) (hm : i ∈ l) :
    l.filter (fun x => x == i) = [i] := by
  induction l with
  | nil => cases hm
  | cons a as ih =>
    rcases List.mem_cons.mp hm with rfl | hm2
    · rw [List.filter_cons_of_pos (by simp)]
      have hnotin : i ∉ as := (List.nodup_cons.mp hnd).1
      have : as.filter (fun x => x == i) = [] := by
        rw [List.filter_eq_nil_iff]
        intro b hb
        simp only [beq_iff_eq]
        intro hbe
        exact hnotin (hbe ▸ hb)
      rw [this]
    · have hne : a ≠ i := by
        rintro rfl
        exact (List.nodup_cons.mp hnd).1 hm2
      rw [List.filter_cons_of_neg (by simpa using hne)]
      exact ih (List.nodup_cons.mp hnd).2 hm2

theorem stops_fullProj (ks : List Json) (i : Json) :
    ((ks.map Ev.blockStop).filter (fun e => e.index? == some i)) =
      (ks.filter (fun k => k == i)).map Ev.blockStop := by
  induction ks with
  | nil => rfl
  | cons k ks ih =>
    by_cases hk : k = i
    · subst hk
      rw [List.map_cons, List.filter_cons_of_pos (by simp [Ev.index?]),
        List.filter_cons_of_pos (by simp), List.map_cons, ih]
    · rw [List.map_cons, List.filter_cons_of_neg (by simp [Ev.index?, hk]),
        List.filter_cons_of_neg (by simpa using hk), ih]

theorem finishEvents_no_tool (st : StState) :
    ∀ e ∈ (finishEvents st).1, (e.isToolStart || e.isToolDelta) = false := by
  unfold finishEvents
  cases (do let fr ← finishReasonOf st.last_chunk
            map_stop_reason fr : Except String String) with
  | error e => simp
  | ok sr =>
  cases Py.getD st.usage "completion_tokens" (.num 0) with
  | error e =>
    intro e he
    simp only at he
    split at he
    · split at he
      · simp at he
        simp [he, Ev.isToolStart, Ev.isToolDelta]
      · simp at he
    · simp only [List.mem_map] at he
      obtain ⟨kv, _, hkv⟩ := he
      simp [← hkv, Ev.isToolStart, Ev.isToolDelta]
  | ok outTok =>
    intro e he
    simp only [List.mem_append] at he
    rcases he with he | he
    · split at he
      · split at he
        · simp at he
          simp [he, Ev.isToolStart, Ev.isToolDelta]
        · simp at he
      · simp only [List.mem_map] at he
        obtain ⟨kv, _, hkv⟩ := he
        simp [← hkv, Ev.isToolStart, Ev.isToolDelta]
    · simp at he
      rcases he with he | he <;> simp [he, Ev.isToolStart, Ev.isToolDelta]

/-- C4 (amended): for every backend fragment sequence none of whose tool-call
fragments is tagged index 0, no `content_block_start` carrying a `tool_use`
block and no `input_json_delta` is ever emitted with index 0, so index 0 is
used only by the text block.  (When a backend tool-call fragment IS tagged
index 0 the translator reuses index 0 for it — see the counterexample.) -/
theorem C4_index_zero_amended (modelName msgId : String) (frags : List Fragment)
    (h0 : ¬ Json.num 0 ∈ fragsToolIndices frags) :
    ∀ e ∈ (stream_generator modelName msgId frags).1,
      (e.isToolStart || e.isToolDelta) = true → e.index? ≠ some (.num 0) := by
  intro e he htool hidx
  unfold stream_generator at he
  cases hrun : runFragments initStState frags with
  | mk loopEvs pr =>
  obtain ⟨st, err⟩ := pr
  simp only [hrun] at he
  obtain ⟨q1, q2, q3, q4, q5, q6⟩ := runFragments_spec frags initStState _ _ _ hrun
  have hloop : e ∈ loopEvs := by
    cases err with
    | some er =>
      simp only [List.mem_append, List.mem_cons, List.not_mem_nil, or_false] at he
      rcases he with (rfl | rfl) | he
      · simp [Ev.isToolStart, Ev.isToolDelta] at htool
      · simp [Ev.isToolStart, Ev.isToolDelta] at htool
      · exact he
    | none =>
      simp only [List.mem_append, List.mem_cons, List.not_mem_nil, or_false] at he
      rcases he with ((rfl | rfl) | he) | hend
      · simp [Ev.isToolStart, Ev.isToolDelta] at htool
      · simp [Ev.isToolStart, Ev.isToolDelta] at htool
      · exact he
      · have hft := finishEvents_no_tool st e hend
        rw [htool] at hft
        cases hft
  have hmemproj : e ∈ toolProj loopEvs (.num 0) :=
    List.mem_filter.mpr ⟨hloop, by simp [htool, hidx]⟩
  exact h0 (q3 (.num 0) e hmemproj)

theorem loopEv_not_stop (e : Ev) (h : e.isLoopEv = true) : e.isStopEv = false := by
  cases e with
  | messageStart a b => simp [Ev.isLoopEv, Ev.isToolStart, Ev.isToolDelta, Ev.isTextEv] at h
  | ping => simp [Ev.isLoopEv, Ev.isToolStart, Ev.isToolDelta, Ev.isTextEv] at h
  | blockStartText => rfl
  | textDelta t => rfl
  | blockStartTool a b c => rfl
  | toolArgsDelta a b => rfl
  | blockStop j => simp [Ev.isLoopEv, Ev.isToolStart, Ev.isToolDelta, Ev.isTextEv] at h
  | messageDelta a b => simp [Ev.isLoopEv, Ev.isToolStart, Ev.isToolDelta, Ev.isTextEv] at h
  | messageStop => simp [Ev.isLoopEv, Ev.isToolStart, Ev.isToolDelta, Ev.isTextEv] at h

/-- C3 (amended): when a stream ends without an exception, the
`content_block_stop` events are exactly: one per open tool-call index, in
first-seen (accumulator insertion) order, with none for the text block, when
any tool call is open; else a single stop for index 0 when the text block
was opened; else none at all (so at most one of the two closing branches
fires, and neither does on a contentless stream; the order is insertion
order, not ascending index order — see the counterexample). -/
theorem C3_stream_close_amended (modelName msgId : String) (frags : List Fragment)
    (evs : List Ev) (h : stream_generator modelName msgId frags = (evs, none)) :
    evs.filter Ev.isStopEv =
      (if startIdxs evs = [] then
         (if Ev.blockStartText ∈ evs then [Ev.blockStop (.num 0)] else [])
       else (startIdxs evs).map Ev.blockStop) := by
  obtain ⟨loopEvs, st, sr, outTok, hrun, hsr, hot, hevs⟩ := stream_generator_clean _ _ _ _ h
  obtain ⟨q1, q2, q3, q4, q5, q6⟩ := runFragments_spec frags initStState _ _ _ hrun
  obtain ⟨hkeys, hnodup, htext, hlast⟩ := q6 rfl
  have hkeys2 : keysOf st = startIdxs loopEvs := by simpa [initStState, keysOf] using hkeys
  have htext2 : st.text_block_started = decide (Ev.blockStartText ∈ loopEvs) := by
    simpa [initStState] using htext
  have hfilloop : loopEvs.filter Ev.isStopEv = [] :=
    List.filter_eq_nil_iff.mpr (fun e he => by simp [loopEv_not_stop e (q1 e he)])
  subst hevs
  by_cases hemp : st.tool_call_accumulators.isEmpty = true
  · have haccnil : st.tool_call_accumulators = [] := by
      rwa [List.isEmpty_iff] at hemp
    have hstartnil : startIdxs loopEvs = [] := by
      rw [← hkeys2, keysOf, haccnil]
      rfl
    rw [if_pos hemp]
    by_cases htb : st.text_block_started = true
    · rw [if_pos htb]
      have hmem : Ev.blockStartText ∈ loopEvs := by
        rw [htext2] at htb
        exact of_decide_eq_true htb
      have hcond1 : startIdxs ([Ev.messageStart msgId modelName, Ev.ping] ++ loopEvs ++
          ([Ev.blockStop (.num 0)] ++ [Ev.messageDelta sr outTok, Ev.messageStop])) = [] := by
        rw [startIdxs_append, startIdxs_append, hstartnil]
        rfl
      rw [if_pos hcond1, if_pos (by simp [hmem])]
      simp only [List.filter_append, hfilloop]
      rfl
    · rw [if_neg htb]
      have hnmem : ¬ Ev.blockStartText ∈ loopEvs := by
        intro hmm
        rw [htext2] at htb
        simp [hmm] at htb
      have hcond1 : startIdxs ([Ev.messageStart msgId modelName, Ev.ping] ++ loopEvs ++
          ([] ++ [Ev.messageDelta sr outTok, Ev.messageStop])) = [] := by
        rw [startIdxs_append, startIdxs_append, hstartnil]
        rfl
      rw [if_pos hcond1, if_neg (by simp [hnmem])]
      simp only [List.filter_append, hfilloop]
      rfl
  · rw [if_neg hemp]
    have haccne : st.tool_call_accumulators ≠ [] := by
      intro hmm
      rw [hmm] at hemp
      simp at hemp
    have hstartne : startIdxs loopEvs ≠ [] := by
      rw [← hkeys2, keysOf]
      simpa using haccne
    have hstops : ∀ e ∈ st.tool_call_accumulators.map (fun kv => Ev.blockStop kv.1),
        e.isToolStart = false := by
      intro e he
      simp only [List.mem_map] at he
      obtain ⟨kv, _, hkv⟩ := he
      simp [← hkv, Ev.isToolStart]
    have hcond1 : startIdxs ([Ev.messageStart msgId modelName, Ev.ping] ++ loopEvs ++
        (st.tool_call_accumulators.map (fun kv => Ev.blockStop kv.1)
          ++ [Ev.messageDelta sr outTok, Ev.messageStop])) = startIdxs loopEvs := by
      rw [startIdxs_append, startIdxs_append, startIdxs_append, startIdxs_eq_nil hstops]
      have hmd : startIdxs [Ev.messageDelta sr outTok, Ev.messageStop] = [] := rfl
      have hpre : startIdxs [Ev.messageStart msgId modelName, Ev.ping] = [] := rfl
      rw [hmd, hpre]
      simp
    rw [if_neg (by rw [hcond1]; exact hstartne)]
    rw [hcond1, ← hkeys2]
    simp only [List.filter_append, hfilloop]
    have hfilstops : (st.tool_call_accumulators.map (fun kv => Ev.blockStop kv.1)).filter
        Ev.isStopEv = st.tool_call_accumulators.map (fun kv => Ev.blockStop kv.1) := by
      rw [List.filter_eq_self]
      intro e he
      simp only [List.mem_map] at he
      obtain ⟨kv, _, hkv⟩ := he
      simp [← hkv, Ev.isStopEv]
    rw [hfilstops]
    have hfiltail : List.filter Ev.isStopEv [Ev.messageDelta sr outTok, Ev.messageStop]
        = [] := rfl
    rw [hfiltail]
    simp [keysOf, List.map_map]
    rfl

theorem loopEv_not_messageDelta (e : Ev) (h : e.isLoopEv = true) :
    e.isMessageDeltaEv = false := by
  cases e with
  | messageStart a b => simp [Ev.isLoopEv, Ev.isToolStart, Ev.isToolDelta, Ev.isTextEv] at h
  | ping => simp [Ev.isLoopEv, Ev.isToolStart, Ev.isToolDelta, Ev.isTextEv] at h
  | blockStartText => rfl
  | textDelta t => rfl
  | blockStartTool a b c => rfl
  | toolArgsDelta a b => rfl
  | blockStop j => simp [Ev.isLoopEv, Ev.isToolStart, Ev.isToolDelta, Ev.isTextEv] at h
  | messageDelta a b => simp [Ev.isLoopEv, Ev.isToolStart, Ev.isToolDelta, Ev.isTextEv] at h
  | messageStop => simp [Ev.isLoopEv, Ev.isToolStart, Ev.isToolDelta, Ev.isTextEv] at h

/-- C5 (amended): when a stream ends without an exception, exactly one
`message_delta` event is emitted, and its stop_reason is the mapping of the
finish_reason read from the LAST successfully parsed chunk of the whole
stream (not the last chunk carrying a finish_reason): a later parsed chunk
with absent or null finish_reason makes the event report end_turn even if an
earlier chunk said tool_calls — see the counterexample. -/
theorem C5_stop_reason_amended (modelName msgId : String) (frags : List Fragment)
    (evs : List Ev) (h : stream_generator modelName msgId frags = (evs, none)) :
    ∃ fr sr outTok,
      finishReasonOf (lastChunkOf (Json.obj []) frags) = Except.ok fr ∧
      map_stop_reason fr = Except.ok sr ∧
      evs.filter Ev.isMessageDeltaEv = [Ev.messageDelta sr outTok] := by
  obtain ⟨loopEvs, st, sr, outTok, hrun, hsr, hot, hevs⟩ := stream_generator_clean _ _ _ _ h
  obtain ⟨q1, q2, q3, q4, q5, q6⟩ := runFragments_spec frags initStState _ _ _ hrun
  obtain ⟨hkeys, hnodup, htext, hlast⟩ := q6 rfl
  have hlast2 : st.last_chunk = lastChunkOf (Json.obj []) frags := by
    simpa [initStState] using hlast
  cases hfr : finishReasonOf st.last_chunk with
  | error e =>
      simp only [hfr, except_bind_error] at hsr
      cases hsr
  | ok fr =>
      simp only [hfr, except_bind_ok] at hsr
      refine ⟨fr, sr, outTok, ?_, hsr, ?_⟩
      · rw [← hlast2]
        exact hfr
      · subst hevs
        have hpre : List.filter Ev.isMessageDeltaEv
            [Ev.messageStart msgId modelName, Ev.ping] = [] := rfl
        have hloop : loopEvs.filter Ev.isMessageDeltaEv = [] :=
          List.filter_eq_nil_iff.mpr
            (fun e he => by simp [loopEv_not_messageDelta e (q1 e he)])
        have hstopfil : ((if st.tool_call_accumulators.isEmpty then
              (if st.text_block_started then [Ev.blockStop (Json.num 0)] else [])
            else st.tool_call_accumulators.map (fun kv => Ev.blockStop kv.1))
              : List Ev).filter Ev.isMessageDeltaEv = [] := by
          split_ifs <;> simp [List.filter_map, Ev.isMessageDeltaEv]
        have htail : List.filter Ev.isMessageDeltaEv
            [Ev.messageDelta sr outTok, Ev.messageStop] = [Ev.messageDelta sr outTok] := rfl
        simp only [List.filter_append]
        rw [hpre, hloop, hstopfil, htail]
        rfl

/-- C2 (amended): in a stream that ends without an exception, for every
index `i` at which a tool-use `content_block_start` is emitted, provided the
stream never collides a text block with index `i` (no text event exists, or
`i ≠ 0`), the events carrying index `i` are exactly one tool-use
`content_block_start`, then that block's `input_json_delta` events, then
exactly one `content_block_stop`. With a text/tool collision at index 0 the
index-0 projection interleaves two blocks — see the counterexample. -/
theorem C2_stream_ordering_amended (modelName msgId : String) (frags : List Fragment)
    (evs : List Ev) (h : stream_generator modelName msgId frags = (evs, none))
    (i : Json) (hi : i ∈ startIdxs evs)
    (hcol : i = Json.num 0 → ∀ e ∈ evs, e.isTextEv = false) :
    ∃ id nm ds, fullProj evs i = Ev.blockStartTool i id nm :: (ds ++ [Ev.blockStop i]) ∧
      ∀ d ∈ ds, d.isToolDelta = true := by
  obtain ⟨loopEvs, st, sr, outTok, hrun, hsr, hot, hevs⟩ := stream_generator_clean _ _ _ _ h
  obtain ⟨q1, q2, q3, q4, q5, q6⟩ := runFragments_spec frags initStState _ _ _ hrun
  obtain ⟨hkeys, hnodup, htext, hlast⟩ := q6 rfl
  have hkeys2 : keysOf st = startIdxs loopEvs := by simpa [initStState, keysOf] using hkeys
  have hnd : (keysOf st).Nodup := hnodup (by simp [initStState, keysOf])
  subst hevs
  have hendTool : ∀ e ∈ ((if st.tool_call_accumulators.isEmpty then
        (if st.text_block_started then [Ev.blockStop (Json.num 0)] else [])
      else st.tool_call_accumulators.map (fun kv => Ev.blockStop kv.1)) ++
        [Ev.messageDelta sr outTok, Ev.messageStop]), e.isToolStart = false := by
    intro e he
    rcases List.mem_append.mp he with hs | ht
    · split_ifs at hs with h1 h2
      · simp at hs
        simp [hs, Ev.isToolStart]
      · simp at hs
      · simp only [List.mem_map] at hs
        obtain ⟨kv, _, hkv⟩ := hs
        simp [← hkv, Ev.isToolStart]
    · simp at ht
      rcases ht with rfl | rfl <;> rfl
  rw [startIdxs_append, startIdxs_append, startIdxs_eq_nil hendTool] at hi
  have hpre0 : startIdxs [Ev.messageStart msgId modelName, Ev.ping] = [] := rfl
  rw [hpre0] at hi
  simp only [List.nil_append, List.append_nil] at hi
  have hik : i ∈ keysOf st := by rw [hkeys2]; exact hi
  have hne : ¬ st.tool_call_accumulators.isEmpty = true := by
    intro hh
    rw [List.isEmpty_iff] at hh
    have h2 := hik
    rw [keysOf, hh] at h2
    cases h2
  have hi0 : ∀ e ∈ loopEvs, e.isTextEv = true → i ≠ Json.num 0 := by
    intro e he htx h0
    have hm := hcol h0 e (List.mem_append.mpr (Or.inl (List.mem_append.mpr (Or.inr he))))
    rw [hm] at htx
    cases htx
  have hloopfull : List.filter (fun e => e.index? == some i) loopEvs = toolProj loopEvs i := by
    apply List.filter_congr
    intro e he
    have hl := q1 e he
    cases e with
    | messageStart a b => simp [Ev.isLoopEv, Ev.isToolStart, Ev.isToolDelta, Ev.isTextEv] at hl
    | ping => simp [Ev.isLoopEv, Ev.isToolStart, Ev.isToolDelta, Ev.isTextEv] at hl
    | blockStartText =>
        have hne0 : i ≠ Json.num 0 := hi0 _ he rfl
        simp [Ev.index?, Ev.isToolStart, Ev.isToolDelta]
        exact fun hh => hne0 hh.symm
    | textDelta t =>
        have hne0 : i ≠ Json.num 0 := hi0 _ he rfl
        simp [Ev.index?, Ev.isToolStart, Ev.isToolDelta]
        exact fun hh => hne0 hh.symm
    | blockStartTool j id nm => simp [Ev.isToolStart]
    | toolArgsDelta j p => simp [Ev.isToolStart, Ev.isToolDelta]
    | blockStop j => simp [Ev.isLoopEv, Ev.isToolStart, Ev.isToolDelta, Ev.isTextEv] at hl
    | messageDelta a b => simp [Ev.isLoopEv, Ev.isToolStart, Ev.isToolDelta, Ev.isTextEv] at hl
    | messageStop => simp [Ev.isLoopEv, Ev.isToolStart, Ev.isToolDelta, Ev.isTextEv] at hl
  have hmapstops : st.tool_call_accumulators.map (fun kv => Ev.blockStop kv.1)
      = (keysOf st).map Ev.blockStop := by
    rw [keysOf, List.map_map]
    rfl
  have hfilstops : List.filter (fun e => e.index? == some i)
      (st.tool_call_accumulators.map (fun kv => Ev.blockStop kv.1)) = [Ev.blockStop i] := by
    rw [hmapstops, stops_fullProj, filter_beq_of_nodup _ _ hnd hik]
    rfl
  have hq5 := q5 i (by simp [initStState, keysOf])
  rcases hq5 with hnil | ⟨id, nm, ds, hproj, hds⟩
  · exact absurd hnil (startIdx_toolProj_ne loopEvs i hi)
  · refine ⟨id, nm, ds, ?_, hds⟩
    rw [if_neg hne]
    simp only [fullProj, List.filter_append]
    have hfilpre : List.filter (fun e => e.index? == some i)
        [Ev.messageStart msgId modelName, Ev.ping] = [] := rfl
    have hfiltail : List.filter (fun e => e.index? == some i)
        [Ev.messageDelta sr outTok, Ev.messageStop] = [] := rfl
    rw [hfilpre, hloopfull, hproj, hfilstops, hfiltail]
    simp

/-- A well-behaved backend stream: a single chunk starting one tool call at
index 1 (id, name and an argument fragment) with `finish_reason:
"tool_calls"`, then the terminator. -/
def orderedToolFrags : List Fragment := [
  .chunk (.obj [("choices", .arr [.obj [("delta", .obj [("tool_calls", .arr [
     .obj [("index", .num 1), ("id", .str "a"),
           ("function", .obj [("name", .str "f"), ("arguments", .str "\x7b\x7d")])]])]),
     ("finish_reason", .str "tool_calls")]])]),
  .done]

/-- C2, witness: the amended ordering theorem applied to `orderedToolFrags`
at index 1. -/
theorem C2_stream_ordering_witness :
    ∃ id nm ds,
      fullProj (stream_generator "m" "g" orderedToolFrags).1 (Json.num 1)
        = Ev.blockStartTool (Json.num 1) id nm :: (ds ++ [Ev.blockStop (Json.num 1)]) ∧
      ∀ d ∈ ds, d.isToolDelta = true :=
  C2_stream_ordering_amended "m" "g" orderedToolFrags
    (stream_generator "m" "g" orderedToolFrags).1 (by decide) (Json.num 1)
    (by decide) (by decide)

/-- C3, witness: the amended closing theorem applied to `orderedToolFrags`. -/
theorem C3_stream_close_witness :
    (stream_generator "m" "g" orderedToolFrags).1.filter Ev.isStopEv =
      (if startIdxs (stream_generator "m" "g" orderedToolFrags).1 = [] then
         (if Ev.blockStartText ∈ (stream_generator "m" "g" orderedToolFrags).1 then
            [Ev.blockStop (Json.num 0)] else [])
       else (startIdxs (stream_generator "m" "g" orderedToolFrags).1).map Ev.blockStop) :=
  C3_stream_close_amended "m" "g" orderedToolFrags
    (stream_generator "m" "g" orderedToolFrags).1 (by decide)

/-- C4, witness: on `orderedToolFrags` no tool-call fragment is tagged
index 0, and indeed its tool-block start does not carry index 0. -/
theorem C4_index_zero_witness :
    Ev.blockStartTool (Json.num 1) (Json.str "a") (Json.str "f")
        ∈ (stream_generator "m" "g" orderedToolFrags).1 ∧
    (Ev.blockStartTool (Json.num 1) (Json.str "a") (Json.str "f")).index?
        ≠ some (Json.num 0) :=
  ⟨by decide,
   C4_index_zero_amended "m" "g" orderedToolFrags (by decide)
     (Ev.blockStartTool (Json.num 1) (Json.str "a") (Json.str "f"))
     (by decide) (by decide)⟩

/-- C5, witness: the amended stop-reason theorem applied to
`orderedToolFrags`, whose last parsed chunk says `tool_calls`. -/
theorem C5_stop_reason_witness :
    ∃ fr sr outTok,
      finishReasonOf (lastChunkOf (Json.obj []) orderedToolFrags) = Except.ok fr ∧
      map_stop_reason fr = Except.ok sr ∧
      (stream_generator "m" "g" orderedToolFrags).1.filter Ev.isMessageDeltaEv
        = [Ev.messageDelta sr outTok] :=
  C5_stop_reason_amended "m" "g" orderedToolFrags
    (stream_generator "m" "g" orderedToolFrags).1 (by decide)

/-! ### Claim C10 -/

theorem map_args_update_of_not_mem (l : List (Json × ToolAcc)) (i : Json) (s : String)
    (h : ¬ i ∈ l.map Prod.fst) :
    l.map (fun kv => if kv.1 = i then (kv.1, { kv.2 with args := kv.2.args ++ s }) else kv)
      = l := by
  induction l with
  | nil => rfl
  | cons kv rest ih =>
    have h1 : kv.1 ≠ i := by
      intro hh
      exact h (by simp [hh])
    have h2 : ¬ i ∈ rest.map Prod.fst := by
      intro hh
      exact h (by simp [hh])
    simp [h1, ih h2]

theorem appendArgs_fresh (st : StState) (i tid tname : Json) (s : String)
    (hfresh : st.tool_call_accumulators.lookup i = none) :
    appendArgs { st with tool_call_accumulators :=
        st.tool_call_accumulators ++ [(i, ⟨tid, tname, ""⟩)] } i s =
      { st with tool_call_accumulators :=
        st.tool_call_accumulators ++ [(i, ⟨tid, tname, s⟩)] } := by
  have hnot : ¬ i ∈ st.tool_call_accumulators.map Prod.fst := lookup_none_not_mem_fst hfresh
  simp only [appendArgs, List.map_append, map_args_update_of_not_mem _ _ s hnot]
  simp

/-- C10, counterexample: "no error is raised and the stream continues" fails
for a fresh-index tool-call fragment lacking both id and name whose
`arguments` value is a truthy non-string: line 296-312 create the
accumulator and yield the `content_block_start` with `''` defaults, but the
`+=` on line 316 then raises TypeError, so the delta returns an error and
the whole stream aborts with it. -/
theorem C10_missing_id_name_counterexample :
    processToolCallDelta initStState
        (.obj [("index", .num 1), ("function", .obj [("arguments", .num 5)])])
      = ([Ev.blockStartTool (.num 1) (.str "") (.str "")],
         .error "TypeError: can only concatenate str") ∧
    (stream_generator "m" "g"
        [.chunk (.obj [("choices", .arr [.obj [("delta", .obj [("tool_calls", .arr [
           .obj [("index", .num 1),
                 ("function", .obj [("arguments", .num 5)])]])])]])])]).2
      = some "TypeError: can only concatenate str" := by
  decide

/-- C10 (amended): a tool-call fragment at a not-yet-seen index whose
`function` field, when present, is a mapping, always creates the accumulator
and emits a `content_block_start` whose `tool_use` block carries
`tcd.get('id', '')` and `func_info.get('name', '')` — the empty string for
each missing id/name field, the carried value for a present one; and
provided its `arguments` value is absent or a string, no error is raised and
the state advances (a nonempty arguments string is appended and emitted as
an `input_json_delta`), so the stream continues. A truthy non-string
`arguments` value instead raises TypeError right after the
`content_block_start` — see the counterexample. -/
theorem C10_missing_id_name_amended (st : StState) (ms fms : List (String × Json))
    (i tid tname : Json) (ds : List Ev) (args : String)
    (hidx : ms.lookup "index" = some i)
    (hfresh : st.tool_call_accumulators.lookup i = none)
    (hmiss : ms.lookup "id" = none ∨ fms.lookup "name" = none)
    (hfn : ms.lookup "function" = none ∧ fms = []
      ∨ ms.lookup "function" = some (.obj fms))
    (htid : (ms.lookup "id").getD (.str "") = tid)
    (htname : (fms.lookup "name").getD (.str "") = tname)
    (hargs : fms.lookup "arguments" = none ∧ ds = [] ∧ args = ""
      ∨ fms.lookup "arguments" = some (.str "") ∧ ds = [] ∧ args = ""
      ∨ ∃ s, s ≠ "" ∧ fms.lookup "arguments" = some (.str s) ∧
          ds = [Ev.toolArgsDelta i s] ∧ args = s) :
    processToolCallDelta st (.obj ms) =
      (Ev.blockStartTool i tid tname :: ds,
       .ok { st with tool_call_accumulators :=
              st.tool_call_accumulators ++ [(i, ⟨tid, tname, args⟩)] }) := by
  have hgi : Py.getItem (.obj ms) "index" = .ok i := by
    simp [Py.getItem, hidx]
  have hfunc : Py.getD (.obj ms) "function" (.obj []) = .ok (.obj fms) := by
    rcases hfn with ⟨h1, h2⟩ | h1
    · simp [Py.getD, h1, h2]
    · simp [Py.getD, h1]
  have hid : Py.getD (.obj ms) "id" (.str "") = .ok tid := by
    simp [Py.getD, htid]
  have hname : Py.getD (.obj fms) "name" (.str "") = .ok tname := by
    simp [Py.getD, htname]
  unfold processToolCallDelta
  simp only [hgi, hfresh, hfunc, hid, hname]
  rcases hargs with ⟨ha, hds, hargs0⟩ | ⟨ha, hds, hargs0⟩ | ⟨s, hs, ha, hds, hargs0⟩
  · have hac : argChunkOf (.obj ms) = .ok none := by
      rcases hfn with ⟨h1, h2⟩ | h1
      · subst h2
        simp [argChunkOf, Py.getD, h1, bind, Except.bind, Py.truthy, pure, Except.pure]
      · simp [argChunkOf, Py.getD, h1, ha, bind, Except.bind, Py.truthy, pure, Except.pure]
    simp only [hac]
    subst hds hargs0
    rfl
  · have hac : argChunkOf (.obj ms) = .ok none := by
      rcases hfn with ⟨h1, h2⟩ | h1
      · subst h2
        simp [argChunkOf, Py.getD, h1, bind, Except.bind, Py.truthy, pure, Except.pure]
      · simp [argChunkOf, Py.getD, h1, ha, bind, Except.bind, Py.truthy, pure, Except.pure]
    simp only [hac]
    subst hds hargs0
    rfl
  · have hac : argChunkOf (.obj ms) = .ok (some s) := by
      rcases hfn with ⟨h1, h2⟩ | h1
      · subst h2
        simp at ha
      · simp [argChunkOf, Py.getD, h1, ha, hs, bind, Except.bind, Py.truthy, pure, Except.pure]
    simp only [hac]
    subst hds
    rw [hargs0, appendArgs_fresh st i tid tname s hfresh]

/-- C10, witness: the theorem applied from the initial state to a fresh
index-2 fragment that carries an id and a nonempty arguments string but no
function name — the block keeps the id and takes `''` for the name. -/
theorem C10_missing_id_name_witness :
    processToolCallDelta initStState
        (.obj [("index", .num 2), ("id", .str "call7"),
               ("function", .obj [("arguments", .str "ab")])]) =
      (Ev.blockStartTool (.num 2) (.str "call7") (.str "")
         :: [Ev.toolArgsDelta (.num 2) "ab"],
       .ok { initStState with tool_call_accumulators :=
              initStState.tool_call_accumulators
                ++ [((.num 2), ⟨.str "call7", .str "", "ab"⟩)] }) :=
  C10_missing_id_name_amended initStState
    [("index", .num 2), ("id", .str "call7"), ("function", .obj [("arguments", .str "ab")])]
    [("arguments", .str "ab")] (.num 2) (.str "call7") (.str "")
    [Ev.toolArgsDelta (.num 2) "ab"] "ab"
    rfl rfl (Or.inr rfl) (Or.inr rfl) rfl rfl
    (Or.inr (Or.inr ⟨"ab", by decide, rfl, rfl, rfl⟩))
